import Mathlib

/-!
# Verification of the HUFF integer-list Huffman codec

This file gives a shallow embedding of `HUFF.py`, a compressor for text
files whose lines are base-10 signed integers, and proves properties of it.

Modelling conventions:
* Python lists become Lean `List`s; machine-independent Python integers are `Nat`.
* The string bit-buffers of the source (`"0101"`) become `List Nat` whose
  elements are the digit values (we prove all produced elements are `< 2`).
* Code strings produced by `huffman` (`code[parent] + str(children[parent])`)
  become `List Nat` with the appended counter as one element; on every tree
  the program builds, the counters are `0` or `1` (proved below), so one
  element corresponds exactly to one character of the Python string.
* The unbounded `while` loops of the source are modelled with an explicit
  fuel argument; each top-level entry point passes fuel that is proved (or
  chosen) to be at least the number of iterations the Python loop performs,
  so the models agree with the source on all inputs considered here.
* File I/O becomes explicit `List` arguments/results: the input file is a
  `List (List Char)` of its (stripped) lines, the compressed file is a
  `List Nat` of byte values, and the decoder returns the list of lines it
  would print together with whether it reached the ended state.
* Fallible situations where the Python script would raise (`rb` returning
  `None` mid-header, the `assert j <= i` failing) are modelled with
  `Except`/`Option` results.
-/

namespace HUFF

/-! ## Bit-level utilities

`bitsBE w v` is the big-endian `w`-bit binary expansion of `v`, i.e. the
digit list of Python's `f"{v:0wb}"` (for `v < 2^w`, which holds at every
use site).  `byteVal` is Python's `int(s, 2)` on a digit string. -/

def bitsBE : Nat → Nat → List Nat
  | 0, _ => []
  | w + 1, v => bitsBE w (v / 2) ++ [v % 2]

def byteVal (bits : List Nat) : Nat :=
  bits.foldl (fun a b => 2 * a + b) 0

/-- One padded byte: append zero bits up to length 8
(`buffer += "0" * (8 - l)` in the source). -/
def padTo8 (bits : List Nat) : List Nat :=
  bits ++ List.replicate (8 - bits.length) 0

/-- Cut a bit string into bytes, zero-padding the final partial byte.
Structural fuel; `chunkPad` below supplies sufficient fuel. -/
def chunkPadF : Nat → List Nat → List Nat
  | 0, _ => []
  | _ + 1, [] => []
  | fuel + 1, bits => byteVal (padTo8 (bits.take 8)) :: chunkPadF fuel (bits.drop 8)

def chunkPad (bits : List Nat) : List Nat :=
  chunkPadF bits.length bits

/-! ## The Huffman tree builder (`tree` in HUFF.py)

The tree is an array of parent indices; `root = 0xF + 11` marks "no
parent".  The Python `PriorityQueue` holds `(count, id)` tuples, all
distinct, and `get()` removes the lexicographically least one; we model
the queue as a list and `popMin` removes the least element. -/

def root : Nat := 0xF + 11

/-- Lexicographic minimum of two `(count, id)` entries (ids are distinct at
every use, so which of two equal entries is kept never matters). -/
def minPQ (a b : Nat × Nat) : Nat × Nat :=
  if b.1 < a.1 ∨ (b.1 = a.1 ∧ b.2 < a.2) then b else a

/-- Remove the least `(count, id)` entry, as `PriorityQueue.get` does. -/
def popMin : List (Nat × Nat) → Option ((Nat × Nat) × List (Nat × Nat))
  | [] => none
  | x :: xs => some (xs.foldl minPQ x, (x :: xs).erase (xs.foldl minPQ x))

/-- The `while not q.empty()` merge loop of `tree`.  Each iteration removes
two entries and inserts one, so `q.length` decreases by one; fuel equal to
the initial queue length is exactly enough (and when the queue empties with
fuel left, or fuel runs out with the queue empty, both the model and the
Python loop stop). -/
def treeLoop : Nat → List (Nat × Nat) → List Nat → List Nat
  | 0, _, t => t
  | fuel + 1, q, t =>
    match popMin q with
    | none => t
    | some ((ci, i), q1) =>
      match popMin q1 with
      | none => t
      | some ((cj, j), q2) =>
        let k := t.length
        treeLoop fuel (q2 ++ [(ci + cj, k)]) (((t ++ [root]).set i k).set j k)

/-- `tree(symbol_counts)`: build the Huffman tree for the given counts.
The queue initially holds `(counts[s], s)` for each symbol `s`. -/
def tree (symbol_counts : List Nat) : List Nat :=
  let q := (List.range symbol_counts.length).map fun s => (symbol_counts.getD s 0, s)
  treeLoop q.length q (List.replicate 11 root)

/-! ## The code generator (`huffman` in HUFF.py) -/

/-- One step of the backward pass: node `i` looks up its parent's code and
the parent's children counter.  State is `(code, children)`. -/
def huffStep (t : List Nat) (s : List (List Nat) × List Nat) (i : Nat) :
    List (List Nat) × List Nat :=
  let parent := t.getD i 0
  if parent < t.length then
    (s.1.set i (s.1.getD parent [] ++ [s.2.getD parent 0]),
     s.2.set parent (s.2.getD parent 0 + 1))
  else s

/-- The full code array (one entry per tree node), before the `[:11]`
truncation: the `for i in range(len(tree)-1, -1, -1)` loop. -/
def huffAll (t : List Nat) : List (List Nat) :=
  ((List.range t.length).reverse.foldl (huffStep t)
    (List.replicate t.length [], List.replicate t.length 0)).1

/-- `huffman(tree)`: the code table of the 11 symbols (`code[:11]`). -/
def huffman (t : List Nat) : List (List Nat) :=
  (huffAll t).take 11

/-! ## Tokenizer / normalizer (the encode read loop) -/

def digitVal (c : Char) : Nat := c.toNat - '0'.toNat

/-- The `for c in line.strip()` loop: strip leading zeros, re-map `'-'` to
symbol 0 without ending leading mode, emit other digits literally. -/
def tokLine : List Char → Bool → List Nat
  | [], _ => []
  | c :: cs, leading =>
    if leading && c == '0' then tokLine cs leading
    else
      let c2 := if c == '-' then '0' else c
      let leading2 := if c == '-' then leading else false
      digitVal c2 :: tokLine cs leading2

/-- The token stream of the whole file before the EOF marker: each line's
symbols followed by the separator symbol 10. -/
def textOf (lines : List (List Char)) : List Nat :=
  lines.flatMap fun l => tokLine l true ++ [10]

/-- The symbol counts accumulated by the read loop: `counts[s]` is the
number of occurrences of `s` in the token stream (the EOF pair `[0,0]` is
appended after counting, so it is not counted). -/
def countsOf (lines : List (List Char)) : List Nat :=
  (List.range 11).map fun s => (textOf lines).count s

/-! ## The bit packer (the encode write loop) -/

/-- The inner `while (l:=len(buffer)) < 8` refill loop: append the next
token's code while the buffer is short; once tokens are exhausted, pad a
nonempty short buffer to a full byte. -/
def refill (codes : List (List Nat)) : List Nat → List Nat → List Nat × List Nat
  | buffer, [] =>
    if buffer.length < 8 ∧ 0 < buffer.length then (padTo8 buffer, [])
    else (buffer, [])
  | buffer, tok :: toks =>
    if buffer.length < 8 then refill codes (buffer ++ codes.getD tok []) toks
    else (buffer, tok :: toks)

/-- The outer `while n < len(text) or buffer != ""` write loop: emit one
byte from the buffer front, then refill.  Fuel-structural; `ENCODE` passes
provably sufficient fuel. -/
def packLoop (codes : List (List Nat)) : Nat → List Nat → List Nat → List Nat
  | 0, _, _ => []
  | fuel + 1, toks, buffer =>
    if toks = [] ∧ buffer = [] then []
    else
      let byte := byteVal (buffer.take 8)
      let s := refill codes (buffer.drop 8) toks
      byte :: packLoop codes fuel s.2 s.1

/-- Header serialization: `"".join(f"{n-11:04b}" for n in header)`. -/
def headerBits (h : List Nat) : List Nat :=
  h.flatMap fun n => bitsBE 4 (n - 11)

/-- Fuel that strictly dominates the number of write-loop iterations. -/
def packFuel (codes : List (List Nat)) (toks buffer : List Nat) : Nat :=
  buffer.length + (toks.flatMap fun tok => codes.getD tok []).length + toks.length + 2

/-- The whole ENCODE phase: tokenize, count, build the tree and codes, and
pack header plus encoded text (with the `[0,0]` EOF marker) into bytes. -/
def ENCODE (lines : List (List Char)) : List Nat :=
  let text := textOf lines ++ [0, 0]
  let hdr := tree (countsOf lines)
  let codes := huffman hdr
  let buf0 := headerBits hdr
  packLoop codes (packFuel codes text buf0) text buf0

/-! ## The decoder -/

inductive DecErr where
  | headerEof
  | assertFail
  | fuelOut
deriving DecidableEq

/-- The header read loop: split each byte into nibbles `a, b`; append
`a+11`; if `a` is the root sentinel the low nibble starts the payload
buffer, otherwise append `b+11` and stop if `b` is the sentinel.
Returns (header, initial bit buffer, remaining bytes); `none` models `rb`
returning `None` mid-header (a crash in the source). -/
def readHeader : List Nat → Option (List Nat × List Nat × List Nat)
  | [] => none
  | byte :: rest =>
    let a := byte / 16
    let b := byte % 16
    if a = 15 then some ([a + 11], bitsBE 4 b, rest)
    else if b = 15 then some ([a + 11, b + 11], [], rest)
    else
      match readHeader rest with
      | none => none
      | some (h, lo, r) => some ((a + 11) :: (b + 11) :: h, lo, r)

structure DecState where
  buffer : List Nat
  number : List Char
  out : List (List Char)
  j : Nat
  writing : Bool
deriving DecidableEq

/-- `for n in range(10): if buffer[:l] == codes[n]: ...` — the first digit
whose code matches the buffer front. -/
def findDigit (codes : List (List Nat)) (buffer : List Nat) : Option Nat :=
  (List.range 10).find? fun n =>
    (codes.getD n []).length ≤ buffer.length ∧
      buffer.take (codes.getD n []).length = codes.getD n []

/-- The inner `while True` decode loop: check for the EOF state, then try
the separator code, then the ten digit codes; stop when nothing matches.
Every match consumes at least one bit (all codes are nonempty on real
trees), so fuel `buffer.length + 1` is enough; `fuelOut` is unreachable
from the outer loop. -/
def innerLoop (codes : List (List Nat)) (iScanned : Nat) :
    Nat → DecState → Except DecErr DecState
  | 0, _ => .error .fuelOut
  | fuel + 1, st =>
    if st.number = ['-', '0'] then .ok { st with writing := false }
    else
      let csep := codes.getD 10 []
      if csep.length ≤ st.buffer.length ∧ st.buffer.take csep.length = csep then
        let line := if st.number = [] then ['0'] else st.number
        if st.j + 1 ≤ iScanned then
          innerLoop codes iScanned fuel
            { st with buffer := st.buffer.drop csep.length, number := [],
                      out := st.out ++ [line], j := st.j + 1 }
        else .error .assertFail
      else
        match findDigit codes st.buffer with
        | some n =>
          let cn := codes.getD n []
          let number2 :=
            if st.number = [] ∧ n = 0 then ['-']
            else st.number ++ [Char.ofNat ('0'.toNat + n)]
          innerLoop codes iScanned fuel
            { st with buffer := st.buffer.drop cn.length, number := number2 }
        | none => .ok st

/-- The outer `while writing and (byte := rb(src)) is not None` loop. -/
def outerLoop (codes : List (List Nat)) (iScanned : Nat) :
    List Nat → DecState → Except DecErr DecState
  | [], st => .ok st
  | byte :: rest, st =>
    if st.writing then
      match innerLoop codes iScanned (st.buffer.length + 9)
          { st with buffer := st.buffer ++ bitsBE 8 byte } with
      | .ok st2 => outerLoop codes iScanned rest st2
      | .error e => .error e
    else .ok st

/-- The whole DECODE phase: read the header, rebuild the codes with the
same `huffman` routine, and run the decode loop.  `iScanned` is the line
count `i` from the encode phase (used by `assert j <= i`).  Returns the
printed lines and whether the ended state (`writing = False`) was
reached. -/
def DECODE (iScanned : Nat) (bytes : List Nat) :
    Except DecErr (List (List Char) × Bool) :=
  match readHeader bytes with
  | none => .error .headerEof
  | some (hdr, lo, rest) =>
    let codes := huffman hdr
    match outerLoop codes iScanned rest
        { buffer := lo, number := [], out := [], j := 0, writing := true } with
    | .ok st => .ok (st.out, !st.writing)
    | .error e => .error e

/-! ## Canonical integer lines -/

/-- Nonempty all-digit strings without a leading zero. -/
def canonDigits : List Char → Bool
  | [] => false
  | c :: cs => c.isDigit && c != '0' && cs.all Char.isDigit

/-- A canonical base-10 signed integer line: `"0"`, a digit string without
superfluous leading zeros, or `'-'` followed by one (so `"-0"` is not
canonical). -/
def canonLine (l : List Char) : Bool :=
  if l = ['0'] then true
  else if l.headD '0' = '-' then canonDigits l.tail
  else canonDigits l

/-- The loop invariant of `treeLoop`, specialized to the run started by
`tree` on an 11-entry count table. -/
structure TInv (q : List (Nat × Nat)) (t : List Nat) : Prop where
  total : q.length + t.length = 22
  len11 : 11 ≤ t.length
  idsLt : ∀ p ∈ q, p.2 < t.length
  nodup : (q.map Prod.snd).Nodup
  lastMem : t.length - 1 ∈ q.map Prod.snd
  rootIff : ∀ i, i < t.length → (t.getD i 0 = root ↔ i ∈ q.map Prod.snd)
  entries : ∀ x ∈ t, x = root ∨ (11 ≤ x ∧ x < t.length)
  parentGt : ∀ i, i < t.length → t.getD i 0 = root ∨ i < t.getD i 0
  child2 : ∀ k, 11 ≤ k → k < t.length → t.count k = 2

/-- Facts about the finished tree array. -/
structure TFacts (t : List Nat) : Prop where
  len : t.length = 21
  rootLast : t.getD 20 0 = root
  parents : ∀ i, i < 20 → 11 ≤ t.getD i 0 ∧ i < t.getD i 0 ∧ t.getD i 0 < 21
  child2 : ∀ k, 11 ≤ k → k < 21 → t.count k = 2
  noRoot : ∀ i, i < 20 → t.getD i 0 ≠ root

/-! ## The code generator: specification and agreement

`codeN t i` is the code the backward pass assigns to node `i`: empty for
the root, otherwise the parent's code with the parent's visit counter
appended.  When node `i` is visited (indices are visited in decreasing
order), the counter of its parent `p` equals the number of later-visited
(higher-index) nodes with the same parent, which is `ordOf`. -/

def nChildren (t : List Nat) (p m : Nat) : Nat :=
  (List.range' m (t.length - m)).countP fun j => t.getD j 0 = p

def ordOf (t : List Nat) (i : Nat) : Nat :=
  nChildren t (t.getD i 0) (i + 1)

def codeOfF (t : List Nat) : Nat → Nat → List Nat
  | 0, _ => []
  | fuel + 1, i =>
    if t.getD i 0 < t.length then codeOfF t fuel (t.getD i 0) ++ [ordOf t i]
    else []

def codeN (t : List Nat) (i : Nat) : List Nat :=
  codeOfF t t.length i

/-- Parents have strictly larger indices (consequence of `TFacts` used as
standalone hypothesis below). -/
def ParentsUp (t : List Nat) : Prop :=
  ∀ i, i < t.length → t.getD i 0 < t.length → i < t.getD i 0

/-- The intermediate state of the backward fold, having processed indices
`t.length - 1` down to `m`. -/
def hstate (t : List Nat) (m : Nat) : List (List Nat) × List Nat :=
  (List.range' m (t.length - m)).reverse.foldl (huffStep t)
    (List.replicate t.length [], List.replicate t.length 0)

structure HState (t : List Nat) (m : Nat) (st : List (List Nat) × List Nat) : Prop where
  lenC : st.1.length = t.length
  lenK : st.2.length = t.length
  codeHi : ∀ i, m ≤ i → i < t.length → st.1.getD i [] = codeN t i
  codeLo : ∀ i, i < m → st.1.getD i [] = []
  kids : ∀ p, p < t.length → st.2.getD p 0 = nChildren t p m

/-- Does a token stream contain two adjacent digit-symbol-0 emissions? -/
def hasAdjZeros : List Nat → Bool
  | a :: b :: r => (a == 0 && b == 0) || hasAdjZeros (b :: r)
  | _ => false

/-! ## Token-level semantics of the decoder

`TokRun iS ts number out j final` says: starting from accumulated number
`number`, printed lines `out` and line count `j`, consuming the token list
`ts` drives the decoder state machine to the ended state with total output
`final`.  The EOF state (`number = "-0"`) is reached exactly when the
tokens run out, mirroring the decoder loop, whose EOF check precedes every
match. -/
inductive TokRun (iS : Nat) : List Nat → List Char → List (List Char) → Nat →
    List (List Char) → Prop where
  | eof : ∀ out j, TokRun iS [] ['-', '0'] out j out
  | sep : ∀ ts number out j final, number ≠ ['-', '0'] → j + 1 ≤ iS →
      TokRun iS ts [] (out ++ [if number = [] then ['0'] else number]) (j + 1) final →
      TokRun iS (10 :: ts) number out j final
  | digit : ∀ ts n number out j final, number ≠ ['-', '0'] → n < 10 →
      TokRun iS ts (if number = [] ∧ n = 0 then ['-']
        else number ++ [Char.ofNat ('0'.toNat + n)]) out j final →
      TokRun iS (n :: ts) number out j final

/-- The facts about the code table that the decoder needs. -/
structure CodesOk (cs : List (List Nat)) : Prop where
  len : cs.length = 11
  nonempty : ∀ s, s < 11 → cs.getD s [] ≠ []
  pfree : ∀ s1 s2, s1 < 11 → s2 < 11 → s1 ≠ s2 →
    ¬ (cs.getD s1 [] <+: cs.getD s2 [])

/-- States of the number accumulator that can absorb any further digit
without ever looking like the EOF marker. -/
def SafeNum (number : List Char) : Prop :=
  (number ≠ [] ∧ number.headD ' ' ≠ '-') ∨ (2 ≤ number.length ∧ number ≠ ['-', '0'])

/-! ## Small list helpers -/

theorem getD_set_self (l : List Nat) (n v : Nat) (h : n < l.length) :
    (l.set n v).getD n 0 = v := by
  rw [List.getD_eq_getElem _ _ (by simpa using h)]
  simp

theorem getD_set_ne (l : List Nat) {m n : Nat} (v : Nat) (h : m ≠ n) :
    (l.set m v).getD n 0 = l.getD n 0 := by
  by_cases hn : n < l.length
  · rw [List.getD_eq_getElem _ _ (by simpa using hn), List.getD_eq_getElem _ _ hn]
    exact List.getElem_set_ne h _
  · rw [List.getD_eq_default _ _ (by simpa using Nat.le_of_not_lt hn),
      List.getD_eq_default _ _ (Nat.le_of_not_lt hn)]

theorem getD_mem {l : List Nat} {n : Nat} (h : n < l.length) (d : Nat) :
    l.getD n d ∈ l := by
  rw [List.getD_eq_getElem _ _ h]
  exact List.getElem_mem _

theorem count_set (l : List Nat) : ∀ (n : Nat), n < l.length → ∀ (v x : Nat),
    (l.set n v).count x + (if l.getD n 0 = x then 1 else 0) =
      l.count x + (if v = x then 1 else 0) := by
  induction l with
  | nil => intro n h; simp at h
  | cons c tl ih =>
    intro n h v x
    match n with
    | 0 =>
      simp only [List.set_cons_zero, List.count_cons, List.getD_cons_zero, beq_iff_eq]
      by_cases h1 : c = x <;> by_cases h2 : v = x <;> simp [h1, h2]
    | n + 1 =>
      have H := ih n (by simpa using Nat.lt_of_succ_lt_succ h) v x
      simp only [List.set_cons_succ, List.count_cons, List.getD_cons_succ, beq_iff_eq]
      omega

/-! ## Tree-builder invariants -/

theorem foldl_minPQ_mem (x : Nat × Nat) (xs : List (Nat × Nat)) :
    xs.foldl minPQ x ∈ x :: xs := by
  induction xs generalizing x with
  | nil => simp
  | cons y ys ih =>
    have h := ih (minPQ x y)
    have hxy : minPQ x y = x ∨ minPQ x y = y := by
      unfold minPQ; split <;> simp
    simp only [List.foldl_cons]
    rcases List.mem_cons.mp h with h | h
    · rcases hxy with h2 | h2
      · rw [h, h2]; simp
      · rw [h, h2]; simp
    · simp [List.mem_cons_of_mem _ (List.mem_cons_of_mem _ h)]

theorem popMin_eq_some {q : List (Nat × Nat)} (h : q ≠ []) :
    ∃ cm im, popMin q = some ((cm, im), q.erase (cm, im)) ∧ (cm, im) ∈ q := by
  match q with
  | x :: xs =>
    exact ⟨(xs.foldl minPQ x).1, (xs.foldl minPQ x).2, rfl, foldl_minPQ_mem x xs⟩

theorem perm_cons_erase_pair {a : Nat × Nat} : ∀ {l : List (Nat × Nat)},
    a ∈ l → List.Perm l (a :: l.erase a) := by
  intro l h
  induction l with
  | nil => simp at h
  | cons b tl ih =>
    by_cases hba : b = a
    · subst hba
      rw [List.erase_cons_head]
    · rw [List.erase_cons_tail (by simpa using hba)]
      rcases List.mem_cons.mp h with h2 | h2
      · exact absurd h2.symm hba
      · exact (List.Perm.cons b (ih h2)).trans (List.Perm.swap _ _ _)

theorem popMin_perm {q : List (Nat × Nat)} {m : Nat × Nat} {q1 : List (Nat × Nat)}
    (h : popMin q = some (m, q1)) : m ∈ q ∧ List.Perm q (m :: q1) := by
  match q with
  | [] => simp [popMin] at h
  | x :: xs =>
    simp only [popMin, Option.some.injEq, Prod.mk.injEq] at h
    obtain ⟨h1, h2⟩ := h
    subst h1
    subst h2
    exact ⟨foldl_minPQ_mem x xs, perm_cons_erase_pair (foldl_minPQ_mem x xs)⟩

theorem tinv_step {q : List (Nat × Nat)} {t : List Nat} (inv : TInv q t)
    {ci i cj j : Nat} {q1 q2 : List (Nat × Nat)}
    (h1 : popMin q = some ((ci, i), q1)) (h2 : popMin q1 = some ((cj, j), q2)) :
    TInv (q2 ++ [(ci + cj, t.length)]) (((t ++ [root]).set i t.length).set j t.length) := by
  obtain ⟨hm1, hp1⟩ := popMin_perm h1
  obtain ⟨hm2, hp2⟩ := popMin_perm h2
  have hperm : List.Perm q ((ci, i) :: (cj, j) :: q2) := hp1.trans (hp2.cons _)
  have hids : List.Perm (q.map Prod.snd) (i :: j :: q2.map Prod.snd) := hperm.map Prod.snd
  have hnodup2 : (i :: j :: q2.map Prod.snd).Nodup := hids.nodup inv.nodup
  have hij : i ≠ j := by
    intro hEq
    exact (List.nodup_cons.mp hnodup2).1 (hEq ▸ List.mem_cons_self _ _)
  have hiq : i ∈ q.map Prod.snd := List.mem_map_of_mem Prod.snd hm1
  have hjq : j ∈ q.map Prod.snd := hids.mem_iff.mpr (by simp)
  have hilt : i < t.length := inv.idsLt _ hm1
  have hjlt : j < t.length := by
    have hjmem : (cj, j) ∈ q := hperm.mem_iff.mpr (by simp)
    exact inv.idsLt _ hjmem
  have hqlen : q.length = q2.length + 2 := by
    have := hperm.length_eq; simpa using this
  have htot := inv.total
  have h11 := inv.len11
  have htle : t.length ≤ 20 := by omega
  have hklt : t.length < root := by unfold root; omega
  have hiq2 : i ∉ q2.map Prod.snd := fun hc =>
    (List.nodup_cons.mp hnodup2).1 (List.mem_cons_of_mem _ hc)
  have hjq2 : j ∉ q2.map Prod.snd := fun hc =>
    (List.nodup_cons.mp (List.nodup_cons.mp hnodup2).2).1 hc
  have hroots_i : t.getD i 0 = root := (inv.rootIff i hilt).mpr hiq
  have hroots_j : t.getD j 0 = root := (inv.rootIff j hjlt).mpr hjq
  set k := t.length with hk
  set t1 := (t ++ [root]).set i k with ht1
  set t2 := t1.set j k with ht2
  have ht1len : t1.length = t.length + 1 := by rw [ht1]; simp
  have ht2len : t2.length = t.length + 1 := by rw [ht2, ht1]; simp
  have happ_getD : ∀ m, m < t.length → (t ++ [root]).getD m 0 = t.getD m 0 := by
    intro m hm; exact List.getD_append _ _ _ _ hm
  have hg_i : t2.getD i 0 = k := by
    rw [ht2, getD_set_ne _ _ (Ne.symm hij), ht1,
      getD_set_self _ _ _ (by simp; omega)]
  have hg_j : t2.getD j 0 = k := by
    rw [ht2, getD_set_self _ _ _ (by rw [ht1len]; omega)]
  have hg_k : t2.getD k 0 = root := by
    rw [ht2, getD_set_ne _ _ (show j ≠ k by omega), ht1,
      getD_set_ne _ _ (show i ≠ k by omega)]
    rw [List.getD_eq_getElem _ _ (by simp [hk])]
    simp
  have hg_old : ∀ m, m < t.length → m ≠ i → m ≠ j → t2.getD m 0 = t.getD m 0 := by
    intro m hm hmi hmj
    rw [ht2, getD_set_ne _ _ (Ne.symm hmj), ht1, getD_set_ne _ _ (Ne.symm hmi)]
    exact happ_getD m hm
  have hq3ids : ((q2 ++ [(ci + cj, k)]).map Prod.snd) = q2.map Prod.snd ++ [k] := by
    simp
  have hq2sub : ∀ x ∈ q2.map Prod.snd, x < t.length := by
    intro x hx
    obtain ⟨p, hp, hpx⟩ := List.mem_map.mp hx
    exact hpx ▸ inv.idsLt p (hperm.mem_iff.mpr (by simp [hp]))
  refine ⟨?_, ?_, ?_, ?_, ?_, ?_, ?_, ?_, ?_⟩
  · rw [ht2len]; simp; omega
  · rw [ht2len]; omega
  · intro p hp
    rw [ht2len]
    rcases List.mem_append.mp hp with hp' | hp'
    · have := hq2sub p.2 (List.mem_map_of_mem _ hp'); omega
    · simp at hp'; rw [hp']; omega
  · rw [hq3ids, List.nodup_append]
    refine ⟨(List.nodup_cons.mp (List.nodup_cons.mp hnodup2).2).2,
      List.nodup_singleton _, ?_⟩
    intro x hx hx'
    simp at hx'
    have := hq2sub x hx; omega
  · rw [hq3ids, ht2len]
    simp
  · intro m hm
    rw [hq3ids]
    rw [ht2len] at hm
    by_cases hmi : m = i
    · subst hmi
      rw [hg_i]
      constructor
      · intro hcon; exact absurd hcon (by omega)
      · intro hmem'
        rcases List.mem_append.mp hmem' with h' | h'
        · exact absurd h' hiq2
        · simp at h'; omega
    · by_cases hmj : m = j
      · subst hmj
        rw [hg_j]
        constructor
        · intro hcon; exact absurd hcon (by omega)
        · intro hmem'
          rcases List.mem_append.mp hmem' with h' | h'
          · exact absurd h' hjq2
          · simp at h'; omega
      · by_cases hmk : m = k
        · subst hmk
          rw [hg_k]
          simp
        · have hmlt : m < t.length := by omega
          rw [hg_old m hmlt hmi hmj, inv.rootIff m hmlt]
          have hmem_iff : m ∈ q.map Prod.snd ↔ m ∈ q2.map Prod.snd := by
            rw [hids.mem_iff]
            simp [hmi, hmj]
          rw [hmem_iff]
          constructor
          · intro h; exact List.mem_append.mpr (Or.inl h)
          · intro h
            rcases List.mem_append.mp h with h' | h'
            · exact h'
            · simp at h'; omega
  · intro x hx
    rw [ht2len]
    rcases List.mem_or_eq_of_mem_set hx with hx' | hx'
    · rcases List.mem_or_eq_of_mem_set hx' with hx'' | hx''
      · rcases List.mem_append.mp hx'' with hx3 | hx3
        · rcases inv.entries x hx3 with h | h
          · exact Or.inl h
          · exact Or.inr ⟨h.1, by omega⟩
        · simp at hx3; exact Or.inl hx3
      · exact Or.inr ⟨by omega, by omega⟩
    · exact Or.inr ⟨by omega, by omega⟩
  · intro m hm
    rw [ht2len] at hm
    by_cases hmi : m = i
    · subst hmi; rw [hg_i]; right; omega
    · by_cases hmj : m = j
      · subst hmj; rw [hg_j]; right; omega
      · by_cases hmk : m = k
        · subst hmk; rw [hg_k]; left; rfl
        · have hmlt : m < t.length := by omega
          rw [hg_old m hmlt hmi hmj]
          exact inv.parentGt m hmlt
  · intro k' hk1 hk2
    rw [ht2len] at hk2
    have happI : (t ++ [root]).getD i 0 = root := (happ_getD i hilt).trans hroots_i
    have hg1_j : t1.getD j 0 = root := by
      rw [ht1, getD_set_ne _ _ hij]
      exact (happ_getD j hjlt).trans hroots_j
    have hset1 := count_set (t ++ [root]) i (by simp; omega) k k'
    have hset2 := count_set t1 j (by rw [ht1len]; omega) k k'
    rw [happI] at hset1
    rw [hg1_j] at hset2
    rw [← ht1] at hset1
    rw [← ht2] at hset2
    have hcnt_app : (t ++ [root]).count k' = t.count k' + (if root = k' then 1 else 0) := by
      rw [List.count_append, List.count_singleton]
      simp only [beq_iff_eq]
    by_cases hkk : k' = k
    · subst hkk
      have hzero : t.count k = 0 := by
        rw [List.count_eq_zero]
        intro hc
        rcases inv.entries _ hc with h | h <;> omega
      have e1 : (if root = k then (1:Nat) else 0) = 0 := if_neg (by omega)
      have e2 : (if k = k then (1:Nat) else 0) = 1 := if_pos (by omega)
      rw [e1, e2] at hset1 hset2
      rw [e1] at hcnt_app
      omega
    · have hold : t.count k' = 2 := inv.child2 k' hk1 (by omega)
      have e1 : (if root = k' then (1:Nat) else 0) = 0 := if_neg (by omega)
      have e2 : (if k = k' then (1:Nat) else 0) = 0 := if_neg (by omega)
      rw [e1, e2] at hset1 hset2
      rw [e1] at hcnt_app
      omega

theorem treeLoop_tfacts : ∀ (fuel : Nat) (q : List (Nat × Nat)) (t : List Nat),
    TInv q t → q.length = fuel → TFacts (treeLoop fuel q t) := by
  intro fuel
  induction fuel with
  | zero =>
    intro q t inv hlen
    have hq : q = [] := List.length_eq_zero.mp hlen
    subst hq
    exact absurd inv.lastMem (by simp)
  | succ f ih =>
    intro q t inv hlen
    have hq : q ≠ [] := by intro h; subst h; simp at hlen
    obtain ⟨cm, im, hpop, hmem⟩ := popMin_eq_some hq
    obtain ⟨hm1, hperm1⟩ := popMin_perm hpop
    by_cases hq1 : q.erase (cm, im) = []
    · -- only one element remained: the loop breaks and returns t
      rw [hq1] at hperm1
      have hlen1 : q.length = 1 := by simpa using hperm1.length_eq
      have htlen : t.length = 21 := by have := inv.total; omega
      have hids : List.Perm (q.map Prod.snd) [im] := hperm1.map Prod.snd
      have hlast : im = 20 := by
        have h20 : 20 ∈ q.map Prod.snd := by
          have := inv.lastMem
          rw [htlen] at this
          simpa using this
        have := hids.mem_iff.mp h20
        simp at this
        omega
      have hres : treeLoop (f + 1) q t = t := by
        unfold treeLoop
        rw [hpop, hq1]
        rfl
      rw [hres]
      have hroot20 : t.getD 20 0 = root := by
        rw [inv.rootIff 20 (by omega), hids.mem_iff]
        simp [hlast]
      have hnr : ∀ i, i < 20 → t.getD i 0 ≠ root := by
        intro i hi hcon
        have hmm := (inv.rootIff i (by omega)).mp hcon
        have := hids.mem_iff.mp hmm
        simp at this
        omega
      refine ⟨htlen, hroot20, ?_, ?_, hnr⟩
      · intro i hi
        have hmemi : t.getD i 0 ∈ t := getD_mem (by omega) 0
        rcases inv.entries _ hmemi with h | h
        · exact absurd h (hnr i hi)
        · rcases inv.parentGt i (by omega) with h' | h'
          · exact absurd h' (hnr i hi)
          · exact ⟨h.1, h', by omega⟩
      · intro k hk1 hk2
        exact inv.child2 k hk1 (by omega)
    · obtain ⟨cm2, im2, hpop2, hmem2⟩ := popMin_eq_some hq1
      have hres : treeLoop (f + 1) q t =
          treeLoop f (((q.erase (cm, im)).erase (cm2, im2)) ++ [(cm + cm2, t.length)])
            (((t ++ [root]).set im t.length).set im2 t.length) := by
        conv_lhs => rw [treeLoop.eq_def]
        simp only []
        rw [hpop]
        simp only []
        rw [hpop2]
      rw [hres]
      have inv2 := tinv_step inv hpop hpop2
      apply ih _ _ inv2
      obtain ⟨_, hperm2⟩ := popMin_perm hpop2
      have hl1 := hperm1.length_eq
      have hl2 := hperm2.length_eq
      simp at hl1 hl2
      simp
      omega

theorem tree_tfacts {counts : List Nat} (h : counts.length = 11) :
    TFacts (tree counts) := by
  unfold tree
  rw [h]
  apply treeLoop_tfacts _ _ _ _ (by simp)
  have hids : ∀ (cs : List Nat),
      ((List.range 11).map fun s => ((cs.getD s 0, s) : Nat × Nat)).map Prod.snd
        = List.range 11 := by
    intro cs
    rw [List.map_map]
    rfl
  refine ⟨?_, ?_, ?_, ?_, ?_, ?_, ?_, ?_, ?_⟩
  · simp
  · simp
  · intro p hp
    obtain ⟨s, hs, hps⟩ := List.mem_map.mp hp
    rw [← hps]
    simp at hs ⊢
    omega
  · rw [hids]; exact List.nodup_range 11
  · rw [hids]; simp
  · intro i hi
    simp only [List.length_replicate] at hi
    rw [hids, List.getD_eq_getElem _ _ (by simpa using hi), List.getElem_replicate]
    simp [hi]
  · intro x hx
    left
    exact List.eq_of_mem_replicate hx
  · intro i hi
    left
    simp only [List.length_replicate] at hi
    rw [List.getD_eq_getElem _ _ (by simpa using hi), List.getElem_replicate]
  · intro k h1 h2
    simp at h2
    omega

theorem codeOfF_stable {t : List Nat} (Hp : ParentsUp t) :
    ∀ fuel fuel' i, i < t.length → t.length - i ≤ fuel → t.length - i ≤ fuel' →
      codeOfF t fuel i = codeOfF t fuel' i := by
  intro fuel
  induction fuel with
  | zero => intro fuel' i hi h1 h2; omega
  | succ f ih =>
    intro fuel' i hi h1 h2
    cases fuel' with
    | zero => omega
    | succ f' =>
      show codeOfF t (f + 1) i = codeOfF t (f' + 1) i
      unfold codeOfF
      by_cases hp : t.getD i 0 < t.length
      · rw [if_pos hp, if_pos hp]
        have hgt := Hp i hi hp
        rw [ih f' (t.getD i 0) hp (by omega) (by omega)]
      · rw [if_neg hp, if_neg hp]

theorem codeN_parent {t : List Nat} (Hp : ParentsUp t) {i : Nat}
    (hi : i < t.length) (hp : t.getD i 0 < t.length) :
    codeN t i = codeN t (t.getD i 0) ++ [ordOf t i] := by
  obtain ⟨l, hl⟩ : ∃ l, t.length = l + 1 := ⟨t.length - 1, by omega⟩
  have hgt := Hp i hi hp
  have h1 : codeOfF t (l + 1) i = codeOfF t l (t.getD i 0) ++ [ordOf t i] := by
    conv_lhs => rw [codeOfF.eq_def]
    simp only []
    rw [if_pos hp]
  have h2 : codeOfF t l (t.getD i 0) = codeOfF t t.length (t.getD i 0) :=
    codeOfF_stable Hp l t.length (t.getD i 0) hp (by omega) (by omega)
  unfold codeN
  rw [hl, h1, h2, ← hl]

theorem codeN_root {t : List Nat} {i : Nat}
    (hp : ¬ t.getD i 0 < t.length) : codeN t i = [] := by
  unfold codeN
  rcases Nat.eq_zero_or_pos t.length with h0 | hpos
  · rw [h0]; rfl
  · obtain ⟨l, hl⟩ : ∃ l, t.length = l + 1 := ⟨t.length - 1, by omega⟩
    rw [hl]
    conv_lhs => rw [codeOfF.eq_def]
    simp only []
    rw [if_neg hp]

/-- One step down of the children counter. -/
theorem nChildren_succ {t : List Nat} {m : Nat} (hm : m < t.length) (p : Nat) :
    nChildren t p m = nChildren t p (m + 1) + (if t.getD m 0 = p then 1 else 0) := by
  unfold nChildren
  have hrange : List.range' m (t.length - m) = m :: List.range' (m + 1) (t.length - (m + 1)) := by
    have h1 : t.length - m = (t.length - (m + 1)) + 1 := by omega
    rw [h1, List.range'_succ]
  rw [hrange, List.countP_cons]
  simp only [decide_eq_true_eq]

theorem hstate_top (t : List Nat) :
    hstate t t.length = (List.replicate t.length [], List.replicate t.length 0) := by
  unfold hstate
  simp

theorem hstate_down {t : List Nat} {m : Nat} (hm : m < t.length) :
    hstate t m = huffStep t (hstate t (m + 1)) m := by
  unfold hstate
  have h1 : t.length - m = (t.length - (m + 1)) + 1 := by omega
  rw [h1, List.range'_succ]
  simp [List.foldl_append]

theorem getD_set_self_list (l : List (List Nat)) (n : Nat) (v : List Nat)
    (h : n < l.length) : (l.set n v).getD n [] = v := by
  rw [List.getD_eq_getElem _ _ (by simpa using h)]
  simp

theorem getD_set_ne_list (l : List (List Nat)) {m n : Nat} (v : List Nat)
    (h : m ≠ n) : (l.set m v).getD n [] = l.getD n [] := by
  by_cases hn : n < l.length
  · rw [List.getD_eq_getElem _ _ (by simpa using hn), List.getD_eq_getElem _ _ hn]
    exact List.getElem_set_ne h _
  · rw [List.getD_eq_default _ _ (by simpa using Nat.le_of_not_lt hn),
      List.getD_eq_default _ _ (Nat.le_of_not_lt hn)]

theorem hstate_spec {t : List Nat} (Hp : ParentsUp t) :
    ∀ d m, m + d = t.length → HState t m (hstate t m) := by
  intro d
  induction d with
  | zero =>
    intro m hm
    have hmL : m = t.length := by omega
    subst hmL
    rw [hstate_top]
    refine ⟨by simp, by simp, ?_, ?_, ?_⟩
    · intro i h1 h2; omega
    · intro i hi
      rw [List.getD_eq_getElem _ _ (by simpa using hi), List.getElem_replicate]
    · intro p hp
      rw [List.getD_eq_getElem _ _ (by simpa using hp), List.getElem_replicate]
      unfold nChildren
      simp
  | succ dd ih =>
    intro m hm
    have hmlt : m < t.length := by omega
    have IH := ih (m + 1) (by omega)
    rw [hstate_down hmlt]
    set st := hstate t (m + 1) with hst
    unfold huffStep
    by_cases hp : t.getD m 0 < t.length
    · rw [if_pos hp]
      have hgt := Hp m hmlt hp
      have hcodeP : st.1.getD (t.getD m 0) [] = codeN t (t.getD m 0) :=
        IH.codeHi _ (by omega) hp
      have hkidsP : st.2.getD (t.getD m 0) 0 = nChildren t (t.getD m 0) (m + 1) :=
        IH.kids _ hp
      refine ⟨by simp [IH.lenC], by simp [IH.lenK], ?_, ?_, ?_⟩
      · intro i h1 h2
        by_cases him : i = m
        · subst him
          rw [getD_set_self_list _ _ _ (by rw [IH.lenC]; omega)]
          rw [hcodeP, hkidsP]
          rw [codeN_parent Hp h2 hp]
          rfl
        · rw [getD_set_ne_list _ _ (by omega : m ≠ i)]
          exact IH.codeHi i (by omega) h2
      · intro i hi
        rw [getD_set_ne_list _ _ (by omega : m ≠ i)]
        exact IH.codeLo i (by omega)
      · intro p' hp'
        by_cases hpp : p' = t.getD m 0
        · subst hpp
          rw [getD_set_self _ _ _ (by rw [IH.lenK]; exact hp)]
          rw [hkidsP, nChildren_succ hmlt]
          rw [if_pos rfl]
        · rw [getD_set_ne _ _ (by omega : t.getD m 0 ≠ p')]
          rw [IH.kids p' hp', nChildren_succ hmlt, if_neg (by omega)]
          omega
    · rw [if_neg hp]
      refine ⟨IH.lenC, IH.lenK, ?_, ?_, ?_⟩
      · intro i h1 h2
        by_cases him : i = m
        · subst him
          rw [IH.codeLo i (by omega), codeN_root hp]
        · exact IH.codeHi i (by omega) h2
      · intro i hi
        exact IH.codeLo i (by omega)
      · intro p' hp'
        rw [IH.kids p' hp', nChildren_succ hmlt, if_neg (by omega)]
        omega

theorem huffAll_eq_codeN {t : List Nat} (Hp : ParentsUp t) {i : Nat}
    (hi : i < t.length) : (huffAll t).getD i [] = codeN t i := by
  have h0 : hstate t 0 = ((List.range t.length).reverse.foldl (huffStep t)
      (List.replicate t.length [], List.replicate t.length 0)) := by
    unfold hstate
    rw [List.range_eq_range']
    simp
  have hs := hstate_spec Hp t.length 0 (by omega)
  rw [h0] at hs
  exact hs.codeHi i (by omega) hi

theorem huffAll_length {t : List Nat} (Hp : ParentsUp t) :
    (huffAll t).length = t.length := by
  have h0 : hstate t 0 = ((List.range t.length).reverse.foldl (huffStep t)
      (List.replicate t.length [], List.replicate t.length 0)) := by
    unfold hstate
    rw [List.range_eq_range']
    simp
  have hs := hstate_spec Hp t.length 0 (by omega)
  rw [h0] at hs
  exact hs.lenC

theorem huffman_getD {t : List Nat} (Hp : ParentsUp t) {s : Nat}
    (hs : s < 11) (hsl : 11 ≤ t.length) :
    (huffman t).getD s [] = codeN t s := by
  unfold huffman
  have hlen := huffAll_length Hp
  rw [List.getD_eq_getElem _ _ (by simp [hlen]; omega)]
  rw [List.getElem_take]
  rw [← List.getD_eq_getElem _ _ (by rw [hlen]; omega)]
  exact huffAll_eq_codeN Hp (by omega)

/-! ## Counting children, sibling ordinals -/

theorem countP_range'_shift (c : Nat) (l : List Nat) (p : Nat) :
    ∀ n s, (List.range' (s + 1) n).countP (fun j => (c :: l).getD j 0 = p)
      = (List.range' s n).countP (fun j => l.getD j 0 = p) := by
  intro n
  induction n with
  | zero => intro s; simp
  | succ nn ih =>
    intro s
    rw [List.range'_succ, List.range'_succ, List.countP_cons, List.countP_cons, ih (s + 1)]
    simp only [List.getD_cons_succ]

theorem countP_range_eq_count : ∀ (l : List Nat) (p : Nat),
    (List.range' 0 l.length).countP (fun j => l.getD j 0 = p) = l.count p := by
  intro l
  induction l with
  | nil => intro p; simp
  | cons c tl ih =>
    intro p
    have hlen : (c :: tl).length = tl.length + 1 := rfl
    rw [hlen, List.range'_succ, List.countP_cons,
      countP_range'_shift c tl p tl.length 0, ih p, List.count_cons]
    simp [beq_iff_eq]

theorem nChildren_zero_eq_count (t : List Nat) (p : Nat) :
    nChildren t p 0 = t.count p := by
  unfold nChildren
  rw [Nat.sub_zero]
  exact countP_range_eq_count t p

theorem nChildren_split (t : List Nat) (p : Nat) {m b : Nat} (hmb : m ≤ b)
    (hbL : b ≤ t.length) :
    nChildren t p m =
      (List.range' m (b - m)).countP (fun j => t.getD j 0 = p) + nChildren t p b := by
  unfold nChildren
  have happ := List.range'_append m (b - m) (t.length - b) 1
  rw [Nat.one_mul, show m + (b - m) = b from by omega,
    show t.length - b + (b - m) = t.length - m from by omega] at happ
  rw [← happ, List.countP_append]

theorem tfacts_parentsUp {t : List Nat} (F : TFacts t) : ParentsUp t := by
  intro i hi hp
  rw [F.len] at hi hp
  by_cases h20 : i < 20
  · exact (F.parents i h20).2.1
  · have : i = 20 := by omega
    subst this
    rw [F.rootLast] at hp
    exact absurd hp (by unfold root; omega)

theorem sibling_ords {t : List Nat} (F : TFacts t) {p a b : Nat}
    (hb : b < 21) (hab : a < b) (hpa : t.getD a 0 = p) (hpb : t.getD b 0 = p)
    (hplt : p < 21) : ordOf t b = 0 ∧ ordOf t a = 1 := by
  have hb20 : b ≠ 20 := by
    intro h; subst h
    rw [F.rootLast] at hpb
    unfold root at hpb
    omega
  have ha20 : a < 20 := by omega
  have hp11 : 11 ≤ p := by
    have := (F.parents a ha20).1
    omega
  have hcount : t.count p = 2 := F.child2 p hp11 hplt
  have htot : nChildren t p 0 = 2 := by
    rw [nChildren_zero_eq_count, hcount]
  have hsplit1 := nChildren_split t p (show 0 ≤ a + 1 from by omega)
    (show a + 1 ≤ t.length from by rw [F.len]; omega)
  have hsplit2 := nChildren_split t p (show a + 1 ≤ b + 1 from by omega)
    (show b + 1 ≤ t.length from by rw [F.len]; omega)
  have hC1 : 0 < (List.range' 0 (a + 1 - 0)).countP (fun j => t.getD j 0 = p) := by
    rw [List.countP_pos_iff]
    exact ⟨a, by rw [List.mem_range'_1]; omega, by simpa using hpa⟩
  have hC2 : 0 < (List.range' (a + 1) (b + 1 - (a + 1))).countP
      (fun j => t.getD j 0 = p) := by
    rw [List.countP_pos_iff]
    exact ⟨b, by rw [List.mem_range'_1]; omega, by simpa using hpb⟩
  have hordb : ordOf t b = nChildren t p (b + 1) := by
    unfold ordOf; rw [hpb]
  have horda : ordOf t a = nChildren t p (a + 1) := by
    unfold ordOf; rw [hpa]
  omega

theorem ordOf_le_one {t : List Nat} (F : TFacts t) {i : Nat} (hi : i < 20) :
    ordOf t i ≤ 1 := by
  have hp := F.parents i hi
  have hcount : t.count (t.getD i 0) = 2 := F.child2 _ hp.1 hp.2.2
  have htot : nChildren t (t.getD i 0) 0 = 2 := by
    rw [nChildren_zero_eq_count, hcount]
  have hsplit := nChildren_split t (t.getD i 0) (show 0 ≤ i + 1 from by omega)
    (show i + 1 ≤ t.length from by rw [F.len]; omega)
  have hC1 : 0 < (List.range' 0 (i + 1 - 0)).countP (fun j => t.getD j 0 = t.getD i 0) := by
    rw [List.countP_pos_iff]
    exact ⟨i, by rw [List.mem_range'_1]; omega, by simp⟩
  unfold ordOf
  omega

/-! ## Structure of the codes: injectivity and prefix-freeness -/

theorem codeN_empty_iff {t : List Nat} (F : TFacts t) {i : Nat} (hi : i < 21) :
    codeN t i = [] ↔ i = 20 := by
  constructor
  · intro h
    by_contra h20
    have hi20 : i < 20 := by omega
    have hp := F.parents i hi20
    have hstep := @codeN_parent t (tfacts_parentsUp F) i (by rw [F.len]; omega)
      (by rw [F.len]; exact hp.2.2)
    rw [h] at hstep
    exact absurd hstep.symm (by simp)
  · intro h
    subst h
    apply codeN_root
    rw [F.len, F.rootLast]
    unfold root
    omega

theorem codeN_len_succ {t : List Nat} (F : TFacts t) {i : Nat} (hi : i < 20) :
    (codeN t i).length = (codeN t (t.getD i 0)).length + 1 := by
  rw [@codeN_parent t (tfacts_parentsUp F) i (by rw [F.len]; omega)
    (by rw [F.len]; exact (F.parents i hi).2.2)]
  simp

theorem codeN_inj {t : List Nat} (F : TFacts t) : ∀ n a b, a < 21 → b < 21 →
    (codeN t a).length = n → codeN t a = codeN t b → a = b := by
  intro n
  induction n using Nat.strong_induction_on with
  | _ n ih =>
    intro a b ha hb hlen heq
    by_cases ha20 : a = 20
    · subst ha20
      have hae : codeN t 20 = [] := (codeN_empty_iff F ha).mpr rfl
      have hbe : codeN t b = [] := by rw [← heq, hae]
      exact ((codeN_empty_iff F hb).mp hbe).symm
    · have ha' : a < 20 := by omega
      have hb20 : b ≠ 20 := by
        intro h
        subst h
        have hbe : codeN t 20 = [] := (codeN_empty_iff F hb).mpr rfl
        rw [hbe] at heq
        exact absurd ((codeN_empty_iff F ha).mp heq) ha20
      have hb' : b < 20 := by omega
      have hpa := F.parents a ha'
      have hpb := F.parents b hb'
      have hea := @codeN_parent t (tfacts_parentsUp F) a (by rw [F.len]; omega)
        (by rw [F.len]; exact hpa.2.2)
      have heb := @codeN_parent t (tfacts_parentsUp F) b (by rw [F.len]; omega)
        (by rw [F.len]; exact hpb.2.2)
      rw [hea, heb] at heq
      have hinj := List.append_inj' heq (by simp)
      have hords : ordOf t a = ordOf t b := by
        have := hinj.2
        simpa using this
      have hlena : (codeN t (t.getD a 0)).length = n - 1 := by
        have := codeN_len_succ F ha'
        omega
      have hn1 : n - 1 < n := by
        have := codeN_len_succ F ha'
        omega
      have hpp : t.getD a 0 = t.getD b 0 :=
        ih (n - 1) hn1 (t.getD a 0) (t.getD b 0) (by omega) (by omega) hlena hinj.1
      by_contra hne
      rcases Nat.lt_or_ge a b with hab | hab
      · have := sibling_ords F (show b < 21 by omega) hab rfl
          (by rw [hpp]) (by omega)
        omega
      · have hba : b < a := by omega
        have := sibling_ords F (show a < 21 by omega) hba rfl
          (by rw [hpp]) (by omega)
        omega

theorem prefix_into_init {xs ys : List Nat} {y : Nat}
    (h : xs <+: ys ++ [y]) (hl : xs.length ≤ ys.length) : xs <+: ys := by
  have hx := List.prefix_iff_eq_take.mp h
  rw [List.take_append_of_le_length hl] at hx
  rw [hx]
  exact List.take_prefix _ _

theorem prefix_leaf {t : List Nat} (F : TFacts t) : ∀ n b, b < 21 →
    (codeN t b).length = n → ∀ a, a < 11 → codeN t a <+: codeN t b → a = b := by
  intro n
  induction n using Nat.strong_induction_on with
  | _ n ih =>
    intro b hb hlen a ha hpre
    by_cases heq : codeN t a = codeN t b
    · exact codeN_inj F (codeN t a).length a b (by omega) hb rfl heq
    · exfalso
      have hlt : (codeN t a).length < (codeN t b).length :=
        Nat.lt_of_le_of_ne hpre.length_le fun hc => heq (hpre.eq_of_length hc)
      have hb20 : b ≠ 20 := by
        intro h
        subst h
        rw [(codeN_empty_iff F hb).mpr rfl] at hlt
        simp at hlt
      have hb' : b < 20 := by omega
      have hpb := F.parents b hb'
      have heb := @codeN_parent t (tfacts_parentsUp F) b (by rw [F.len]; omega)
        (by rw [F.len]; exact hpb.2.2)
      have hlen_eq := codeN_len_succ F hb'
      have hstep : codeN t a <+: codeN t (t.getD b 0) := by
        apply prefix_into_init (heb ▸ hpre)
        omega
      have hres := ih (codeN t (t.getD b 0)).length (by omega) (t.getD b 0)
        (by omega) rfl a ha hstep
      have : 11 ≤ t.getD b 0 := hpb.1
      omega

theorem codeN_prefix_free {t : List Nat} (F : TFacts t) {s1 s2 : Nat}
    (h1 : s1 < 11) (h2 : s2 < 11) (hne : s1 ≠ s2) :
    ¬ (codeN t s1 <+: codeN t s2) := fun hp =>
  hne (prefix_leaf F (codeN t s2).length s2 (by omega) rfl s1 h1 hp)

theorem codeN_ne_nil {t : List Nat} (F : TFacts t) {s : Nat} (hs : s < 11) :
    codeN t s ≠ [] := by
  intro h
  have := (codeN_empty_iff F (by omega)).mp h
  omega

theorem codeN_bits {t : List Nat} (F : TFacts t) : ∀ d i, i < 21 →
    21 - i ≤ d → ∀ x ∈ codeN t i, x ≤ 1 := by
  intro d
  induction d with
  | zero => intro i hi hd; omega
  | succ dd ih =>
    intro i hi hd x hx
    by_cases hi20 : i = 20
    · subst hi20
      rw [(codeN_empty_iff F hi).mpr rfl] at hx
      simp at hx
    · have hi' : i < 20 := by omega
      have hp := F.parents i hi'
      rw [@codeN_parent t (tfacts_parentsUp F) i (by rw [F.len]; omega)
        (by rw [F.len]; exact hp.2.2)] at hx
      rcases List.mem_append.mp hx with h | h
      · exact ih (t.getD i 0) (by omega) (by omega) x h
      · simp at h
        subst h
        exact ordOf_le_one F hi'

/-! ## Bit-string lemmas -/

theorem bitsBE_length : ∀ w v, (bitsBE w v).length = w := by
  intro w
  induction w with
  | zero => intro v; rfl
  | succ ww ih => intro v; unfold bitsBE; simp [ih]

theorem bitsBE_lt_two : ∀ w v, ∀ x ∈ bitsBE w v, x < 2 := by
  intro w
  induction w with
  | zero => intro v x hx; simp [bitsBE] at hx
  | succ ww ih =>
    intro v x hx
    unfold bitsBE at hx
    rcases List.mem_append.mp hx with h | h
    · exact ih _ x h
    · simp at h
      subst h
      exact Nat.mod_lt _ (by omega)

theorem byteVal_go (b : List Nat) : ∀ x : Nat,
    b.foldl (fun a c => 2 * a + c) x = x * 2 ^ b.length + b.foldl (fun a c => 2 * a + c) 0 := by
  induction b with
  | nil => intro x; simp
  | cons c tl ih =>
    intro x
    simp only [List.foldl_cons, List.length_cons]
    rw [ih (2 * x + c), ih (2 * 0 + c)]
    ring

theorem byteVal_append (a b : List Nat) :
    byteVal (a ++ b) = byteVal a * 2 ^ b.length + byteVal b := by
  unfold byteVal
  rw [List.foldl_append, byteVal_go b (a.foldl (fun a c => 2 * a + c) 0)]

theorem byteVal_bitsBE : ∀ w v, v < 2 ^ w → byteVal (bitsBE w v) = v := by
  intro w
  induction w with
  | zero => intro v hv; interval_cases v; rfl
  | succ ww ih =>
    intro v hv
    unfold bitsBE
    rw [byteVal_append, ih (v / 2) (by rw [pow_succ] at hv; omega)]
    simp [byteVal]
    omega

theorem byteVal_lt : ∀ l : List Nat, (∀ x ∈ l, x < 2) → byteVal l < 2 ^ l.length := by
  intro l
  induction l with
  | nil => intro h; simp [byteVal]
  | cons c tl ih =>
    intro h
    have : byteVal (c :: tl) = c * 2 ^ tl.length + byteVal tl := by
      have := byteVal_append [c] tl
      simpa [byteVal] using this
    rw [this]
    have h1 : c < 2 := h c (by simp)
    have h2 : byteVal tl < 2 ^ tl.length := ih fun x hx => h x (by simp [hx])
    simp only [List.length_cons, pow_succ]
    nlinarith

theorem bitsBE_byteVal : ∀ w (l : List Nat), l.length = w → (∀ x ∈ l, x < 2) →
    bitsBE w (byteVal l) = l := by
  intro w
  induction w with
  | zero =>
    intro l hl _
    rw [List.length_eq_zero.mp hl]
    rfl
  | succ ww ih =>
    intro l hl hb
    have hne : l ≠ [] := by intro h; subst h; simp at hl
    obtain ⟨l', x, hlx⟩ : ∃ l' x, l = l' ++ [x] :=
      ⟨l.dropLast, l.getLast hne, (List.dropLast_append_getLast hne).symm⟩
    subst hlx
    have hx2 : x < 2 := hb x (by simp)
    have hbv : byteVal (l' ++ [x]) = 2 * byteVal l' + x := by
      rw [byteVal_append]
      simp [byteVal]
      ring
    unfold bitsBE
    rw [hbv]
    have hd : (2 * byteVal l' + x) / 2 = byteVal l' := by omega
    have hm : (2 * byteVal l' + x) % 2 = x := by omega
    rw [hd, hm]
    have hl' : l'.length = ww := by
      have := hl
      simp at this
      omega
    rw [ih l' hl' fun y hy => hb y (by simp [hy])]

theorem byteVal_two_nibbles {x y : Nat} (hx : x < 16) (hy : y < 16) :
    byteVal (bitsBE 4 x ++ bitsBE 4 y) = 16 * x + y := by
  rw [byteVal_append, bitsBE_length, byteVal_bitsBE 4 x (by omega),
    byteVal_bitsBE 4 y (by omega)]
  norm_num
  ring

/-! ## Byte chunking lemmas -/

theorem chunkPadF_nil : ∀ f, chunkPadF f [] = [] := by
  intro f
  cases f <;> rfl

theorem chunkPadF_cons_unfold (f : Nat) (bits : List Nat) (h : bits ≠ []) :
    chunkPadF (f + 1) bits = byteVal (padTo8 (bits.take 8)) :: chunkPadF f (bits.drop 8) := by
  match bits, h with
  | c :: rest, _ => rfl

theorem chunkPadF_congr : ∀ f f' (bits : List Nat), bits.length ≤ f → bits.length ≤ f' →
    chunkPadF f bits = chunkPadF f' bits := by
  intro f
  induction f with
  | zero =>
    intro f' bits h1 h2
    have : bits = [] := by
      cases bits with
      | nil => rfl
      | cons c r => simp at h1
    subst this
    rw [chunkPadF_nil, chunkPadF_nil]
  | succ ff ih =>
    intro f' bits h1 h2
    cases bits with
    | nil => rw [chunkPadF_nil, chunkPadF_nil]
    | cons c r =>
      cases f' with
      | zero => simp at h2
      | succ ff' =>
        rw [chunkPadF_cons_unfold ff (c :: r) (by simp),
          chunkPadF_cons_unfold ff' (c :: r) (by simp)]
        simp only [List.length_cons] at h1 h2
        have hdl : ((c :: r).drop 8).length ≤ ff := by
          simp only [List.length_drop, List.length_cons]
          omega
        have hdl' : ((c :: r).drop 8).length ≤ ff' := by
          simp only [List.length_drop, List.length_cons]
          omega
        rw [ih ff' _ hdl hdl']

theorem chunkPad_cons8 {b8 : List Nat} (h : b8.length = 8) (rest : List Nat) :
    chunkPad (b8 ++ rest) = byteVal b8 :: chunkPad rest := by
  unfold chunkPad
  have hlen : (b8 ++ rest).length = 8 + rest.length := by simp [h]
  have hne : b8 ++ rest ≠ [] := by
    intro hc
    have := congrArg List.length hc
    simp [h] at this
  obtain ⟨f, hf⟩ : ∃ f, (b8 ++ rest).length = f + 1 := ⟨(b8 ++ rest).length - 1, by
    rw [hlen]; omega⟩
  rw [hf, chunkPadF_cons_unfold f _ hne]
  have htake : (b8 ++ rest).take 8 = b8 := by
    rw [← h, List.take_left]
  have hdrop : (b8 ++ rest).drop 8 = rest := by
    rw [← h, List.drop_left]
  rw [htake, hdrop]
  have hpad : padTo8 b8 = b8 := by
    unfold padTo8
    rw [h]
    simp
  rw [hpad]
  have : rest.length ≤ f := by omega
  rw [chunkPadF_congr f rest.length rest this (le_refl _)]

theorem chunkPad_short {l : List Nat} (h1 : 0 < l.length) (h2 : l.length < 8) :
    chunkPad l = [byteVal (padTo8 l)] := by
  unfold chunkPad
  have hne : l ≠ [] := by intro h; subst h; simp at h1
  obtain ⟨f, hf⟩ : ∃ f, l.length = f + 1 := ⟨l.length - 1, by omega⟩
  rw [hf, chunkPadF_cons_unfold f _ hne]
  have htake : l.take 8 = l := List.take_of_length_le (by omega)
  have hdrop : l.drop 8 = [] := List.drop_eq_nil_of_le (by omega)
  rw [htake, hdrop, chunkPadF_nil]

/-! ## Claims about the tree and the code table -/

/-- C2: for every 11-entry frequency table, the code table obtained by
running `huffman` on the output of `tree` is prefix-free: for every pair of
distinct symbols, neither symbol's code is a prefix of the other's. -/
theorem huffman_tree_prefix_free (counts : List Nat) (h : counts.length = 11) :
    ∀ s1 s2, s1 < 11 → s2 < 11 → s1 ≠ s2 →
      ¬ ((huffman (tree counts)).getD s1 [] <+: (huffman (tree counts)).getD s2 []) := by
  intro s1 s2 h1 h2 hne
  have F := tree_tfacts h
  have Hp := tfacts_parentsUp F
  rw [huffman_getD Hp h1 (by rw [F.len]; omega),
    huffman_getD Hp h2 (by rw [F.len]; omega)]
  exact codeN_prefix_free F h1 h2 hne

theorem huffman_tree_prefix_free_witness :
    (List.replicate 11 0 : List Nat).length = 11 ∧
      ¬ ((huffman (tree (List.replicate 11 0))).getD 0 [] <+:
          (huffman (tree (List.replicate 11 0))).getD 1 []) :=
  ⟨by decide,
    huffman_tree_prefix_free (List.replicate 11 0) (by decide) 0 1 (by decide)
      (by decide) (by decide)⟩

/-- C5: for every 11-entry frequency table, the finished tree array has
exactly one root-marked node, and it is the last (21st) entry. -/
theorem tree_unique_root_last (counts : List Nat) (h : counts.length = 11) :
    (tree counts).length = 21 ∧ (tree counts).getD 20 0 = root ∧
      ∀ i, i < 20 → (tree counts).getD i 0 ≠ root := by
  have F := tree_tfacts h
  exact ⟨F.len, F.rootLast, F.noRoot⟩

theorem tree_unique_root_last_witness :
    (List.replicate 11 0 : List Nat).length = 11 ∧
      ((tree (List.replicate 11 0)).length = 21 ∧
        (tree (List.replicate 11 0)).getD 20 0 = root ∧
        ∀ i, i < 20 → (tree (List.replicate 11 0)).getD i 0 ≠ root) :=
  ⟨by decide, tree_unique_root_last (List.replicate 11 0) (by decide)⟩

/-- C6 (counterexample): on the all-zero count table, leaves 0 and 1 are the
two children of internal node 11, with 0 in the lower array slot; the code
generator gives slot 0 the ordinal 1 (not 0), and slot 1 the ordinal 0. -/
theorem huffman_lower_child_ordinal_counterexample :
    (tree (List.replicate 11 0)).getD 0 0 = 11 ∧
    (tree (List.replicate 11 0)).getD 1 0 = 11 ∧
    (huffAll (tree (List.replicate 11 0))).getD 0 [] =
      (huffAll (tree (List.replicate 11 0))).getD 11 [] ++ [1] ∧
    (huffAll (tree (List.replicate 11 0))).getD 0 [] ≠
      (huffAll (tree (List.replicate 11 0))).getD 11 [] ++ [0] := by
  decide

/-- C6 (amended): in the code generator, of an internal node's two children
the node stored in the HIGHER array slot receives ordinal 0 (parent's code
with 0 appended) and the node in the lower slot receives ordinal 1. -/
theorem huffman_child_ordinals (counts : List Nat) (h : counts.length = 11) :
    ∀ p a b, a < b → b < 21 → p < 21 →
      (tree counts).getD a 0 = p → (tree counts).getD b 0 = p →
      (huffAll (tree counts)).getD b [] = (huffAll (tree counts)).getD p [] ++ [0] ∧
      (huffAll (tree counts)).getD a [] = (huffAll (tree counts)).getD p [] ++ [1] := by
  intro p a b hab hb hp hpa hpb
  have F := tree_tfacts h
  have Hp := tfacts_parentsUp F
  have hords := sibling_ords F hb hab hpa hpb hp
  have hca := @codeN_parent (tree counts) Hp a (by rw [F.len]; omega)
    (by rw [F.len, hpa]; omega)
  have hcb := @codeN_parent (tree counts) Hp b (by rw [F.len]; omega)
    (by rw [F.len, hpb]; omega)
  rw [hpa] at hca
  rw [hpb] at hcb
  constructor
  · rw [huffAll_eq_codeN Hp (by rw [F.len]; omega),
      huffAll_eq_codeN Hp (by rw [F.len]; omega), hcb, hords.1]
  · rw [huffAll_eq_codeN Hp (by rw [F.len]; omega),
      huffAll_eq_codeN Hp (by rw [F.len]; omega), hca, hords.2]

theorem huffman_child_ordinals_witness :
    (List.replicate 11 0 : List Nat).length = 11 ∧
      ((tree (List.replicate 11 0)).getD 0 0 = 11 ∧
        (tree (List.replicate 11 0)).getD 1 0 = 11 ∧
        (huffAll (tree (List.replicate 11 0))).getD 1 [] =
          (huffAll (tree (List.replicate 11 0))).getD 11 [] ++ [0] ∧
        (huffAll (tree (List.replicate 11 0))).getD 0 [] =
          (huffAll (tree (List.replicate 11 0))).getD 11 [] ++ [1]) := by
  refine ⟨by decide, by decide, by decide, ?_, ?_⟩
  · exact (huffman_child_ordinals (List.replicate 11 0) (by decide) 11 0 1
      (by decide) (by decide) (by decide) (by decide) (by decide)).1
  · exact (huffman_child_ordinals (List.replicate 11 0) (by decide) 11 0 1
      (by decide) (by decide) (by decide) (by decide) (by decide)).2

/-! ## Header serialization / deserialization -/

theorem headerBits_cons (n : Nat) (r : List Nat) :
    headerBits (n :: r) = bitsBE 4 (n - 11) ++ headerBits r := by
  unfold headerBits
  rw [List.flatMap_cons]

theorem headerBits_length : ∀ h : List Nat, (headerBits h).length = 4 * h.length := by
  intro h
  induction h with
  | nil => rfl
  | cons n r ih =>
    rw [headerBits_cons]
    simp [bitsBE_length, ih]
    omega

theorem headerBits_bits : ∀ h : List Nat, ∀ x ∈ headerBits h, x < 2 := by
  intro h
  induction h with
  | nil => intro x hx; simp [headerBits] at hx
  | cons n r ih =>
    intro x hx
    rw [headerBits_cons] at hx
    rcases List.mem_append.mp hx with h' | h'
    · exact bitsBE_lt_two 4 _ x h'
    · exact ih x h'

/-- Reading a header stream: two good fields per byte until the sentinel
field 15 appears as a high nibble, whose low-nibble partner starts the
payload buffer. -/
theorem readHeader_stream_aux : ∀ (n : Nat) (H1 : List Nat), H1.length = n →
    H1.length % 2 = 0 →
    (∀ x ∈ H1, 11 ≤ x ∧ x - 11 < 15) → ∀ (tb : List Nat), 4 ≤ tb.length →
    (∀ x ∈ tb, x < 2) →
    readHeader (chunkPad (headerBits (H1 ++ [root]) ++ tb)) =
      some (H1 ++ [root], tb.take 4, chunkPad (tb.drop 4)) := by
  intro n
  induction n using Nat.strong_induction_on with
  | _ n ih =>
    intro H1 hlenn
    match H1 with
    | [] =>
      intro _ _ tb htb4 htbb
      simp only [List.nil_append]
      have hhb : headerBits [root] = bitsBE 4 15 := by
        unfold headerBits root
        simp
      rw [hhb]
      have hsplit : bitsBE 4 15 ++ tb = (bitsBE 4 15 ++ tb.take 4) ++ tb.drop 4 := by
        rw [List.append_assoc, List.take_append_drop]
      rw [hsplit]
      have hlen8 : (bitsBE 4 15 ++ tb.take 4).length = 8 := by
        rw [List.length_append, bitsBE_length, List.length_take]
        omega
      rw [chunkPad_cons8 hlen8]
      have hbv : byteVal (bitsBE 4 15 ++ tb.take 4) = 16 * 15 + byteVal (tb.take 4) := by
        rw [byteVal_append, List.length_take, byteVal_bitsBE 4 15 (by omega)]
        have : min 4 tb.length = 4 := by omega
        rw [this]
        ring
      have hlt : byteVal (tb.take 4) < 16 := by
        have := byteVal_lt (tb.take 4) fun x hx => htbb x (List.mem_of_mem_take hx)
        rw [List.length_take] at this
        have hm : min 4 tb.length = 4 := by omega
        rw [hm] at this
        calc byteVal (tb.take 4) < 2 ^ 4 := this
        _ = 16 := by norm_num
      unfold readHeader
      rw [hbv]
      have hdiv : (16 * 15 + byteVal (tb.take 4)) / 16 = 15 := by omega
      have hmod : (16 * 15 + byteVal (tb.take 4)) % 16 = byteVal (tb.take 4) := by omega
      rw [hdiv, hmod]
      rw [if_pos rfl]
      rw [bitsBE_byteVal 4 (tb.take 4) (by rw [List.length_take]; omega)
        fun x hx => htbb x (List.mem_of_mem_take hx)]
      rfl
    | [x] =>
      intro hpar _ _ _ _
      simp at hpar
    | x :: y :: H1' =>
      intro hpar hvals tb htb4 htbb
      have hx := hvals x (by simp)
      have hy := hvals y (by simp)
      have hxv : 16 * (x - 11) + (y - 11) < 256 := by omega
      have hstream : headerBits ((x :: y :: H1') ++ [root]) ++ tb =
          (bitsBE 4 (x - 11) ++ bitsBE 4 (y - 11)) ++
            (headerBits (H1' ++ [root]) ++ tb) := by
        simp only [List.cons_append, headerBits_cons]
        simp [List.append_assoc]
      rw [hstream]
      have hlen8 : (bitsBE 4 (x - 11) ++ bitsBE 4 (y - 11)).length = 8 := by
        rw [List.length_append, bitsBE_length, bitsBE_length]
      rw [chunkPad_cons8 hlen8]
      have hbv : byteVal (bitsBE 4 (x - 11) ++ bitsBE 4 (y - 11)) =
          16 * (x - 11) + (y - 11) := byteVal_two_nibbles (by omega) (by omega)
      unfold readHeader
      rw [hbv]
      have hdiv : (16 * (x - 11) + (y - 11)) / 16 = x - 11 := by omega
      have hmod : (16 * (x - 11) + (y - 11)) % 16 = y - 11 := by omega
      rw [hdiv, hmod]
      rw [if_neg (by omega), if_neg (by omega)]
      have hrec := ih H1'.length (by simp at hlenn; omega) H1' rfl
        (by simp at hpar; omega)
        (fun z hz => hvals z (by simp [hz])) tb htb4 htbb
      rw [hrec]
      have hx11 : x - 11 + 11 = x := by omega
      have hy11 : y - 11 + 11 = y := by omega
      rw [hx11, hy11]
      rfl

theorem readHeader_stream (H1 : List Nat) (hpar : H1.length % 2 = 0)
    (hvals : ∀ x ∈ H1, 11 ≤ x ∧ x - 11 < 15) (tb : List Nat)
    (htb4 : 4 ≤ tb.length) (htbb : ∀ x ∈ tb, x < 2) :
    readHeader (chunkPad (headerBits (H1 ++ [root]) ++ tb)) =
      some (H1 ++ [root], tb.take 4, chunkPad (tb.drop 4)) :=
  readHeader_stream_aux H1.length H1 rfl hpar hvals tb htb4 htbb

theorem tree_decomp {t : List Nat} (F : TFacts t) :
    t = t.take 20 ++ [root] ∧ (t.take 20).length = 20 ∧
      ∀ x ∈ t.take 20, 11 ≤ x ∧ x - 11 < 15 := by
  have hlen := F.len
  have hdrop : t.drop 20 = [root] := by
    rw [List.drop_eq_getElem_cons (by omega)]
    have h21 : t.drop 21 = [] := List.drop_eq_nil_of_le (by omega)
    rw [h21]
    have : t[20] = root := by
      rw [← List.getD_eq_getElem t 0 (by omega)]
      exact F.rootLast
    rw [this]
  constructor
  · conv_lhs => rw [← List.take_append_drop 20 t]
    rw [hdrop]
  constructor
  · rw [List.length_take]
    omega
  · intro x hx
    obtain ⟨i, hi, hxi⟩ := List.mem_iff_getElem.mp hx
    have hi20 : i < 20 := by
      rw [List.length_take] at hi
      omega
    have : (t.take 20)[i] = t.get ⟨i, by omega⟩ := List.getElem_take _
    rw [this] at hxi
    have hgd : t.getD i 0 = x := by
      rw [List.getD_eq_getElem t 0 (by omega)]
      exact hxi
    have := F.parents i hi20
    omega

/-- C3: serializing the tree array as 4-bit fields (parent − 11, sentinel
0xF for the root) and deserializing with `readHeader` consumes exactly the
21 serialized fields (84 bits), discovering the boundary from the sentinel
alone: the reconstructed array equals the original, the following 4 bits of
the stream become the initial payload buffer, and the remaining bytes are
untouched — so `huffman` run on the reconstructed header yields the
identical code table. -/
theorem header_roundtrip (counts : List Nat) (h : counts.length = 11)
    (tb : List Nat) (htb4 : 4 ≤ tb.length) (htbb : ∀ x ∈ tb, x < 2) :
    (headerBits (tree counts)).length = 4 * 21 ∧
      readHeader (chunkPad (headerBits (tree counts) ++ tb)) =
        some (tree counts, tb.take 4, chunkPad (tb.drop 4)) := by
  have F := tree_tfacts h
  obtain ⟨hdec, hlen20, hvals⟩ := tree_decomp F
  constructor
  · rw [headerBits_length, F.len]
  · conv_lhs => rw [hdec]
    conv_rhs => rw [hdec]
    exact readHeader_stream _ (by rw [hlen20]) hvals tb htb4 htbb

theorem header_roundtrip_witness :
    ((List.replicate 11 0 : List Nat).length = 11 ∧ 4 ≤ ([0, 0, 0, 0] : List Nat).length ∧
        (∀ x ∈ ([0, 0, 0, 0] : List Nat), x < 2)) ∧
      ((headerBits (tree (List.replicate 11 0))).length = 4 * 21 ∧
        readHeader (chunkPad (headerBits (tree (List.replicate 11 0)) ++ [0, 0, 0, 0])) =
          some (tree (List.replicate 11 0), ([0, 0, 0, 0] : List Nat).take 4,
            chunkPad (([0, 0, 0, 0] : List Nat).drop 4))) :=
  ⟨⟨by decide, by decide, by decide⟩,
    header_roundtrip (List.replicate 11 0) (by decide) [0, 0, 0, 0] (by decide) (by decide)⟩

/-! ## The write loop produces exactly the padded, chunked bit stream -/

theorem refill_spec (cs : List (List Nat)) : ∀ (ts b : List Nat),
    (8 ≤ (refill cs b ts).1.length ∧ (refill cs b ts).2.length ≤ ts.length ∧
      (refill cs b ts).1 ++ (refill cs b ts).2.flatMap (fun tok => cs.getD tok []) =
        b ++ ts.flatMap (fun tok => cs.getD tok [])) ∨
    ((refill cs b ts).2 = [] ∧ (b ++ ts.flatMap (fun tok => cs.getD tok [])).length = 0 ∧
      (refill cs b ts).1 = []) ∨
    ((refill cs b ts).2 = [] ∧
      0 < (b ++ ts.flatMap (fun tok => cs.getD tok [])).length ∧
      (b ++ ts.flatMap (fun tok => cs.getD tok [])).length < 8 ∧
      (refill cs b ts).1 = padTo8 (b ++ ts.flatMap (fun tok => cs.getD tok []))) := by
  intro ts
  induction ts with
  | nil =>
    intro b
    show _ ∨ _ ∨ _
    unfold refill
    by_cases hc : b.length < 8 ∧ 0 < b.length
    · rw [if_pos hc]
      right; right
      refine ⟨rfl, ?_, ?_, by simp⟩
      · simpa using hc.2
      · simpa using hc.1
    · rw [if_neg hc]
      by_cases hb0 : b.length = 0
      · right; left
        have hb : b = [] := List.length_eq_zero.mp hb0
        subst hb
        simp
      · have h8 : 8 ≤ b.length := by
          rcases Nat.lt_or_ge b.length 8 with h | h
          · exact absurd ⟨h, by omega⟩ hc
          · exact h
        left
        refine ⟨by simpa using h8, by simp, by simp⟩
  | cons tok toks ih =>
    intro b
    show _ ∨ _ ∨ _
    unfold refill
    by_cases hc : b.length < 8
    · rw [if_pos hc]
      have H := ih (b ++ cs.getD tok [])
      rw [List.append_assoc] at H
      rw [List.flatMap_cons]
      rcases H with ⟨h1, h2, h3⟩ | ⟨h1, h2, h3⟩ | ⟨h1, h2, h3, h4⟩
      · left
        exact ⟨h1, le_trans h2 (by simp), h3⟩
      · right; left
        exact ⟨h1, h2, h3⟩
      · right; right
        exact ⟨h1, h2, h3, h4⟩
    · rw [if_neg hc]
      left
      refine ⟨by simpa using Nat.le_of_not_lt hc, by simp, by simp⟩

theorem packLoop_chunkPad (cs : List (List Nat)) : ∀ (fuel : Nat) (ts b : List Nat),
    (8 ≤ b.length ∨ (b = [] ∧ ts = [])) →
    b.length + (ts.flatMap fun tok => cs.getD tok []).length + ts.length + 1 ≤ fuel →
    packLoop cs fuel ts b = chunkPad (b ++ ts.flatMap fun tok => cs.getD tok []) := by
  intro fuel
  induction fuel using Nat.strong_induction_on with
  | _ fuel ih =>
    intro ts b hinv hfuel
    obtain ⟨f, hf⟩ : ∃ f, fuel = f + 1 := ⟨fuel - 1, by omega⟩
    subst hf
    rcases hinv with h8 | ⟨hb, hts⟩
    · have hbne : ¬(ts = [] ∧ b = []) := by
        intro ⟨_, hbe⟩
        rw [hbe] at h8
        simp at h8
      conv_lhs => rw [packLoop.eq_def]
      simp only []
      rw [if_neg hbne]
      have hsplit : b ++ ts.flatMap (fun tok => cs.getD tok []) =
          b.take 8 ++ (b.drop 8 ++ ts.flatMap fun tok => cs.getD tok []) := by
        rw [← List.append_assoc, List.take_append_drop]
      rw [hsplit, chunkPad_cons8 (by rw [List.length_take]; omega)]
      have hflen : (ts.flatMap fun tok => cs.getD tok []).length =
          (ts.flatMap fun tok => cs.getD tok []).length := rfl
      rcases refill_spec cs ts (b.drop 8) with ⟨r1, r2, r3⟩ | ⟨r1, r2, r3⟩ | ⟨r1, r2, r3, r4⟩
      · have hlens : (refill cs (b.drop 8) ts).1.length +
            ((refill cs (b.drop 8) ts).2.flatMap fun tok => cs.getD tok []).length =
            (b.drop 8).length + (ts.flatMap fun tok => cs.getD tok []).length := by
          have := congrArg List.length r3
          simpa using this
        rw [ih f (by omega) _ _ (Or.inl r1) (by
          simp only [List.length_drop] at hlens ⊢
          omega)]
        rw [r3]
      · have hdd : (refill cs (b.drop 8) ts).2 = [] := r1
        have hb8 : b.drop 8 = [] ∧ (ts.flatMap fun tok => cs.getD tok []) = [] := by
          rw [List.length_append] at r2
          constructor
          · exact List.length_eq_zero.mp (by omega)
          · exact List.length_eq_zero.mp (by omega)
        rw [ih f (by omega) _ _ (Or.inr ⟨r3, r1⟩) (by
          rw [r3, r1]
          simp
          omega)]
        rw [r3, r1, hb8.1, hb8.2]
        simp
      · have hpadlen : (padTo8 (b.drop 8 ++ ts.flatMap fun tok => cs.getD tok [])).length = 8 := by
          unfold padTo8
          rw [List.length_append, List.length_replicate]
          omega
        rw [ih f (by omega) _ _ (Or.inl (by rw [r4, hpadlen]))
          (by
            rw [r4, r1, hpadlen]
            simp only [List.flatMap_nil, List.length_nil, List.length_cons]
            have hlb : 9 ≤ b.length + (ts.flatMap fun tok => cs.getD tok []).length := by
              rw [List.length_append, List.length_drop] at r2 r3
              omega
            omega)]
        rw [r1, r4]
        simp only [List.flatMap_nil, List.append_nil]
        set X := b.drop 8 ++ ts.flatMap fun tok => cs.getD tok [] with hX
        have h1 : chunkPad (padTo8 X) = [byteVal (padTo8 X)] := by
          rw [show padTo8 X = padTo8 X ++ ([] : List Nat) from by simp,
            chunkPad_cons8 hpadlen]
          simp [chunkPad, chunkPadF_nil]
        have h2 : chunkPad X = [byteVal (padTo8 X)] := chunkPad_short (by omega) (by omega)
        rw [h1, h2]
    · subst hb
      subst hts
      conv_lhs => rw [packLoop.eq_def]
      simp [chunkPad, chunkPadF_nil]

/-! ## ENCODE as a padded bit stream -/

theorem countsOf_length (lines : List (List Char)) : (countsOf lines).length = 11 := by
  unfold countsOf
  simp

theorem ENCODE_eq (lines : List (List Char)) :
    ENCODE lines = chunkPad (headerBits (tree (countsOf lines)) ++
      (textOf lines ++ [0, 0]).flatMap fun tok =>
        (huffman (tree (countsOf lines))).getD tok []) := by
  have F := tree_tfacts (countsOf_length lines)
  unfold ENCODE
  apply packLoop_chunkPad
  · left
    rw [headerBits_length, F.len]
    omega
  · unfold packFuel
    omega

theorem huffman_length (counts : List Nat) (h : counts.length = 11) :
    (huffman (tree counts)).length = 11 := by
  unfold huffman
  rw [List.length_take, huffAll_length (tfacts_parentsUp (tree_tfacts h)),
    (tree_tfacts h).len]
  omega

theorem huffman_code_bits (counts : List Nat) (h : counts.length = 11) :
    ∀ tok, ∀ x ∈ (huffman (tree counts)).getD tok [], x < 2 := by
  intro tok x hx
  by_cases htok : tok < 11
  · have F := tree_tfacts h
    rw [huffman_getD (tfacts_parentsUp F) htok (by rw [F.len]; omega)] at hx
    have := codeN_bits F 21 tok (by omega) (by omega) x hx
    omega
  · rw [List.getD_eq_default _ _ (by rw [huffman_length counts h]; omega)] at hx
    simp at hx

theorem payload_bits (counts : List Nat) (h : counts.length = 11) (ts : List Nat) :
    ∀ x ∈ ts.flatMap fun tok => (huffman (tree counts)).getD tok [], x < 2 := by
  intro x hx
  obtain ⟨tok, _, hxc⟩ := List.mem_flatMap.mp hx
  exact huffman_code_bits counts h tok x hxc

/-! ## Byte positions within the stream -/

theorem chunkPad_append_eight : ∀ n (B rest : List Nat), B.length = 8 * n →
    chunkPad (B ++ rest) = chunkPad B ++ chunkPad rest ∧ (chunkPad B).length = n := by
  intro n
  induction n with
  | zero =>
    intro B rest h
    have hB : B = [] := List.length_eq_zero.mp (by omega)
    subst hB
    simp [chunkPad, chunkPadF_nil]
  | succ nn ih =>
    intro B rest h
    have h8 : 8 ≤ B.length := by omega
    have hsplit : B ++ rest = B.take 8 ++ (B.drop 8 ++ rest) := by
      rw [← List.append_assoc, List.take_append_drop]
    have htl : (B.take 8).length = 8 := by rw [List.length_take]; omega
    have hdl : (B.drop 8).length = 8 * nn := by rw [List.length_drop]; omega
    obtain ⟨ih1, ih2⟩ := ih (B.drop 8) rest hdl
    constructor
    · rw [hsplit, chunkPad_cons8 htl, ih1]
      conv_rhs => rw [show B = B.take 8 ++ B.drop 8 from (List.take_append_drop 8 B).symm,
        chunkPad_cons8 htl]
      simp
    · conv_lhs => rw [show B = B.take 8 ++ B.drop 8 from (List.take_append_drop 8 B).symm,
        chunkPad_cons8 htl]
      simp [ih2]

theorem chunk_head_nib (payload : List Nat) :
    (chunkPad (bitsBE 4 15 ++ payload)).getD 0 0 =
      byteVal (bitsBE 4 15 ++ (payload ++ List.replicate 4 0).take 4) := by
  by_cases h4 : 4 ≤ payload.length
  · have hsplit : bitsBE 4 15 ++ payload =
        (bitsBE 4 15 ++ payload.take 4) ++ payload.drop 4 := by
      rw [List.append_assoc, List.take_append_drop]
    have hlen8 : (bitsBE 4 15 ++ payload.take 4).length = 8 := by
      rw [List.length_append, bitsBE_length, List.length_take]
      omega
    rw [hsplit, chunkPad_cons8 hlen8]
    rw [List.take_append_of_le_length h4]
    rfl
  · have hlen : (bitsBE 4 15 ++ payload).length = 4 + payload.length := by
      rw [List.length_append, bitsBE_length]
    have hpos : 0 < (bitsBE 4 15 ++ payload).length := by omega
    have hlt8 : (bitsBE 4 15 ++ payload).length < 8 := by omega
    rw [chunkPad_short hpos hlt8]
    have hpad : padTo8 (bitsBE 4 15 ++ payload) =
        bitsBE 4 15 ++ (payload ++ List.replicate (4 - payload.length) 0) := by
      unfold padTo8
      rw [show 8 - (bitsBE 4 15 ++ payload).length = 4 - payload.length from by omega,
        List.append_assoc]
    rw [hpad]
    have htake : (payload ++ List.replicate 4 0).take 4 =
        payload ++ List.replicate (4 - payload.length) 0 := by
      rw [List.take_append_eq_append_take, List.take_of_length_le (by omega),
        List.take_replicate]
      congr 2
      omega
    rw [htake]
    rfl

theorem stream_byte10 (counts : List Nat) (h : counts.length = 11)
    (payload : List Nat) :
    (chunkPad (headerBits (tree counts) ++ payload)).getD 10 0 =
      byteVal (bitsBE 4 15 ++ (payload ++ List.replicate 4 0).take 4) := by
  have F := tree_tfacts h
  obtain ⟨hdec, hlen20, hvals⟩ := tree_decomp F
  have hsplit : headerBits (tree counts) =
      headerBits ((tree counts).take 20) ++ bitsBE 4 15 := by
    conv_lhs => rw [hdec]
    unfold headerBits
    rw [List.flatMap_append]
    congr 1
  have hlen80 : (headerBits ((tree counts).take 20)).length = 8 * 10 := by
    rw [headerBits_length, hlen20]
  rw [hsplit, List.append_assoc]
  obtain ⟨happ, hlen⟩ := chunkPad_append_eight 10 _ (bitsBE 4 15 ++ payload) hlen80
  rw [happ]
  rw [List.getD_append_right _ _ _ _ (by omega)]
  rw [hlen]
  simp only [Nat.sub_self]
  exact chunk_head_nib payload

/-- C10: the tree always has exactly 21 entries, the header is exactly 84
bits, and in the encoded file the root sentinel is the high nibble of the
11th byte, whose low nibble holds the first 4 payload bits (zero-padded
when the payload is shorter). -/
theorem tree21_header84_sentinel_byte :
    (∀ counts : List Nat, counts.length = 11 →
      (tree counts).length = 21 ∧ (headerBits (tree counts)).length = 84) ∧
    ∀ lines : List (List Char),
      (ENCODE lines).getD 10 0 / 16 = 15 ∧
      bitsBE 4 ((ENCODE lines).getD 10 0 % 16) =
        (((textOf lines ++ [0, 0]).flatMap fun tok =>
          (huffman (tree (countsOf lines))).getD tok []) ++ List.replicate 4 0).take 4 := by
  constructor
  · intro counts h
    have F := tree_tfacts h
    refine ⟨F.len, ?_⟩
    rw [headerBits_length, F.len]
  · intro lines
    set payload := (textOf lines ++ [0, 0]).flatMap fun tok =>
      (huffman (tree (countsOf lines))).getD tok [] with hpay
    have hpb : ∀ x ∈ payload, x < 2 :=
      payload_bits (countsOf lines) (countsOf_length lines) _
    have hbyte : (ENCODE lines).getD 10 0 =
        byteVal (bitsBE 4 15 ++ (payload ++ List.replicate 4 0).take 4) := by
      rw [ENCODE_eq]
      exact stream_byte10 (countsOf lines) (countsOf_length lines) payload
    set T4 := (payload ++ List.replicate 4 0).take 4 with hT4
    have hT4len : T4.length = 4 := by
      rw [hT4, List.length_take, List.length_append, List.length_replicate]
      omega
    have hT4bits : ∀ x ∈ T4, x < 2 := by
      intro x hx
      have := List.mem_of_mem_take hx
      rcases List.mem_append.mp this with h | h
      · exact hpb x h
      · rw [List.eq_of_mem_replicate h]
        omega
    have hbv : byteVal (bitsBE 4 15 ++ T4) = 16 * 15 + byteVal T4 := by
      rw [byteVal_append, hT4len, byteVal_bitsBE 4 15 (by norm_num)]
      norm_num
    have hlt : byteVal T4 < 16 := by
      have := byteVal_lt T4 hT4bits
      rw [hT4len] at this
      norm_num at this
      exact this
    constructor
    · rw [hbyte, hbv]
      omega
    · rw [hbyte, hbv]
      rw [show (16 * 15 + byteVal T4) % 16 = byteVal T4 from by omega]
      exact bitsBE_byteVal 4 T4 hT4len hT4bits

theorem tree21_header84_sentinel_byte_witness :
    ((List.replicate 11 0 : List Nat).length = 11 ∧
      ((tree (List.replicate 11 0)).length = 21 ∧
        (headerBits (tree (List.replicate 11 0))).length = 84)) ∧
    ((ENCODE []).getD 10 0 / 16 = 15 ∧
      bitsBE 4 ((ENCODE []).getD 10 0 % 16) =
        (((textOf [] ++ [0, 0]).flatMap fun tok =>
          (huffman (tree (countsOf []))).getD tok []) ++ List.replicate 4 0).take 4) :=
  ⟨⟨by decide, tree21_header84_sentinel_byte.1 (List.replicate 11 0) (by decide)⟩,
    tree21_header84_sentinel_byte.2 []⟩

/-- C7: the input line `"-0"` decodes to the bare sign character `"-"`:
the tokenizer emits only the sign symbol (the zero is stripped), and the
decoder's empty-number-to-"0" rule does not fire because the accumulated
number is the sign marker, not empty. -/
theorem minus_zero_decodes_to_bare_sign :
    tokLine ['-', '0'] true = [0] ∧
      DECODE 1 (ENCODE [['-', '0']]) = .ok ([['-']], true) := by
  constructor
  · rfl
  · rfl

/-- C9: an empty input file still produces a valid header followed by a
body that is just the two-symbol EOF marker (plus padding), and decoding
emits zero lines and reaches the ended state without error. -/
theorem empty_input_roundtrip :
    ENCODE [] = chunkPad (headerBits (tree (countsOf [])) ++
        ((huffman (tree (countsOf []))).getD 0 [] ++
          (huffman (tree (countsOf []))).getD 0 [])) ∧
      DECODE 0 (ENCODE []) = .ok ([], true) := by
  constructor
  · rfl
  · rfl

/-! ## Tokenizer lemmas -/

theorem digit_toNat {c : Char} (h : c.isDigit = true) :
    48 ≤ c.toNat ∧ c.toNat ≤ 57 := by
  simp [Char.isDigit] at h
  obtain ⟨h1, h2⟩ := h
  unfold Char.toNat
  rw [UInt32.le_def, BitVec.le_def] at h1 h2
  constructor
  · simpa using h1
  · simpa using h2

theorem digit_ne_dash {c : Char} (h : c.isDigit = true) : c ≠ '-' := by
  intro hc
  subst hc
  simp [Char.isDigit] at h

theorem digitVal_lt_ten {c : Char} (h : c.isDigit = true) : digitVal c < 10 := by
  have := digit_toNat h
  unfold digitVal
  have h0 : ('0' : Char).toNat = 48 := by decide
  omega

theorem digitVal_ne_zero {c : Char} (h : c.isDigit = true) (h0 : c ≠ '0') :
    digitVal c ≠ 0 := by
  have hb := digit_toNat h
  unfold digitVal
  intro hc
  have htn : c.toNat = 48 := by
    have h48 : ('0' : Char).toNat = 48 := by decide
    omega
  apply h0
  have hcc := Char.ofNat_toNat c
  rw [htn] at hcc
  rw [← hcc]

theorem digitChar_roundtrip {c : Char} (h : c.isDigit = true) :
    Char.ofNat ('0'.toNat + digitVal c) = c := by
  have hb := digit_toNat h
  have h48 : ('0' : Char).toNat = 48 := by decide
  rw [show '0'.toNat + digitVal c = c.toNat from by unfold digitVal; omega]
  exact Char.ofNat_toNat c

theorem tokLine_all_digits (l : List Char) (hd : ∀ c ∈ l, c.isDigit = true) :
    tokLine l false = l.map digitVal := by
  induction l with
  | nil => rfl
  | cons c cs ih =>
    have hc := hd c (by simp)
    have hdash : (c == '-') = false := by
      simp
      exact digit_ne_dash hc
    unfold tokLine
    simp only [Bool.false_and, if_neg Bool.false_ne_true]
    rw [hdash]
    simp only [if_neg Bool.false_ne_true]
    rw [List.map_cons]
    exact congrArg _ (ih fun c hc => hd c (by simp [hc]))

theorem tokLine_lead_digit {d : Char} {ds : List Char} (hdig : d.isDigit = true)
    (h0 : d ≠ '0') (hds : ∀ c ∈ ds, c.isDigit = true) :
    tokLine (d :: ds) true = digitVal d :: ds.map digitVal := by
  have hd0 : (d == '0') = false := by simp [h0]
  have hdash : (d == '-') = false := by simp; exact digit_ne_dash hdig
  unfold tokLine
  rw [hd0, hdash]
  simp only [Bool.and_false, if_neg Bool.false_ne_true]
  exact congrArg _ (tokLine_all_digits ds hds)

theorem tokLine_dash (t : List Char) :
    tokLine ('-' :: t) true = 0 :: tokLine t true := rfl

theorem tokLine_zero : tokLine ['0'] true = [] := rfl

theorem canonLine_cases (l : List Char) (h : canonLine l = true) :
    l = ['0'] ∨
    (∃ d ds, l = '-' :: d :: ds ∧ d.isDigit = true ∧ d ≠ '0' ∧
      ∀ c ∈ ds, c.isDigit = true) ∨
    (∃ d ds, l = d :: ds ∧ d.isDigit = true ∧ d ≠ '0' ∧
      ∀ c ∈ ds, c.isDigit = true) := by
  unfold canonLine at h
  by_cases h1 : l = ['0']
  · exact Or.inl h1
  · rw [if_neg h1] at h
    by_cases h2 : l.headD '0' = '-'
    · rw [if_pos h2] at h
      right; left
      match l, h2, h with
      | c :: t, h2, h =>
        simp at h2
        subst h2
        match t, h with
        | d :: ds, h =>
          unfold canonDigits at h
          simp at h
          exact ⟨d, ds, rfl, h.1.1, by simpa using h.1.2, fun c hc => by
            have := h.2 c hc
            simpa using this⟩
    · rw [if_neg h2] at h
      right; right
      match l, h with
      | d :: ds, h =>
        unfold canonDigits at h
        simp at h
        exact ⟨d, ds, rfl, h.1.1, by simpa using h.1.2, fun c hc => by
          have := h.2 c hc
          simpa using this⟩

/-- C4 (counterexample): the canonical line `"100"` produces two adjacent
digit-symbol-0 emissions inside the numeric payload. -/
theorem adjacent_zeros_in_payload_counterexample :
    canonLine ['1', '0', '0'] = true ∧
      hasAdjZeros (textOf [['1', '0', '0']]) = true := by
  constructor
  · rfl
  · rfl

/-- C4 (amended): for canonical input lines, no line's token sequence
begins with two digit-symbol-0 emissions (though adjacent zeros can occur
later in a number, as in `"100"`), so the `[0, 0]` end-of-stream marker —
which always starts a fresh number group — is never mistaken for payload
by the decoder's EOF rule, which only fires on a group-initial zero pair. -/
theorem no_group_initial_zero_pair (lines : List (List Char))
    (h : ∀ l ∈ lines, canonLine l = true) :
    ∀ l ∈ lines, ¬ ([0, 0] <+: tokLine l true) := by
  intro l hl hpre
  rcases canonLine_cases l (h l hl) with h1 | ⟨d, ds, h1, hdig, h0, hds⟩ |
    ⟨d, ds, h1, hdig, h0, hds⟩
  · subst h1
    rw [tokLine_zero] at hpre
    simp at hpre
  · subst h1
    rw [tokLine_dash, tokLine_lead_digit hdig h0 hds] at hpre
    obtain ⟨_, hpre2⟩ := List.cons_prefix_cons.mp hpre
    obtain ⟨hz, _⟩ := List.cons_prefix_cons.mp hpre2
    exact digitVal_ne_zero hdig h0 hz.symm
  · subst h1
    rw [tokLine_lead_digit hdig h0 hds] at hpre
    obtain ⟨hz, _⟩ := List.cons_prefix_cons.mp hpre
    exact digitVal_ne_zero hdig h0 hz.symm

theorem no_group_initial_zero_pair_witness :
    (∀ l ∈ [['1', '0', '0']], canonLine l = true) ∧
      ∀ l ∈ [['1', '0', '0']], ¬ ([0, 0] <+: tokLine l true) :=
  ⟨by decide, no_group_initial_zero_pair [['1', '0', '0']] (by decide)⟩

theorem codesOk_huffman (counts : List Nat) (h : counts.length = 11) :
    CodesOk (huffman (tree counts)) := by
  have F := tree_tfacts h
  have Hp := tfacts_parentsUp F
  have hL : 11 ≤ (tree counts).length := by rw [F.len]; omega
  refine ⟨huffman_length counts h, ?_, ?_⟩
  · intro s hs
    rw [huffman_getD Hp hs hL]
    exact codeN_ne_nil F hs
  · intro s1 s2 h1 h2 hne
    rw [huffman_getD Hp h1 hL, huffman_getD Hp h2 hL]
    exact codeN_prefix_free F h1 h2 hne

/-! ## Matching lemmas: which code matches the buffer front -/

theorem prefix_of_left {xs ys zs : List Nat} (h : xs <+: ys ++ zs)
    (hl : xs.length ≤ ys.length) : xs <+: ys := by
  have hx := List.prefix_iff_eq_take.mp h
  rw [List.take_append_eq_append_take,
    show xs.length - ys.length = 0 from by omega] at hx
  simp at hx
  rw [hx]
  exact List.take_prefix _ _

theorem match_iff_front {c buffer : List Nat} :
    (c.length ≤ buffer.length ∧ buffer.take c.length = c) ↔ c <+: buffer := by
  constructor
  · intro ⟨h1, h2⟩
    rw [← h2]
    exact List.take_prefix _ _
  · intro h
    exact ⟨h.length_le, (List.prefix_iff_eq_take.mp h).symm⟩

/-- On a buffer that starts with token `t`'s code, no other symbol's code
matches the front. -/
theorem no_other_match {cs : List (List Nat)} (hc : CodesOk cs) {t s : Nat}
    (ht : t < 11) (hs : s < 11) (hne : s ≠ t) (rest : List Nat) :
    ¬ (cs.getD s [] <+: cs.getD t [] ++ rest) := by
  intro hpre
  have hself : cs.getD t [] <+: cs.getD t [] ++ rest := List.prefix_append _ _
  rcases List.prefix_or_prefix_of_prefix hpre hself with h | h
  · exact hc.pfree s t hs ht hne h
  · exact hc.pfree t s ht hs (Ne.symm hne) h

/-- On a buffer that is a proper prefix of token `t`'s code, no symbol's
code matches the front. -/
theorem no_match_short {cs : List (List Nat)} (hc : CodesOk cs) {t s : Nat}
    (ht : t < 11) (hs : s < 11) {r : List Nat} (hr : r <+: cs.getD t [])
    (hlt : r.length < (cs.getD t []).length) :
    ¬ (cs.getD s [] <+: r) := by
  intro hpre
  have htrans : cs.getD s [] <+: cs.getD t [] := hpre.trans hr
  by_cases hst : s = t
  · subst hst
    have := hpre.length_le
    omega
  · exact hc.pfree s t hs ht hst htrans

theorem findDigit_eq_some {cs : List (List Nat)} (hc : CodesOk cs) {t : Nat}
    (ht : t < 10) (rest : List Nat) :
    findDigit cs (cs.getD t [] ++ rest) = some t := by
  unfold findDigit
  have hgen : ∀ (l : List Nat), (∀ n ∈ l, n < 10) → t ∈ l →
      (l.find? fun n => (cs.getD n []).length ≤ (cs.getD t [] ++ rest).length ∧
        (cs.getD t [] ++ rest).take (cs.getD n []).length = cs.getD n []) = some t := by
    intro l
    induction l with
    | nil => intro _ h; simp at h
    | cons m ms ih =>
      intro hml hmem
      by_cases hmt : m = t
      · subst hmt
        rw [List.find?_cons_of_pos]
        simp only [decide_eq_true_eq]
        rw [match_iff_front]
        exact List.prefix_append _ _
      · rw [List.find?_cons_of_neg]
        · exact ih (fun n hn => hml n (by simp [hn]))
            (by rcases List.mem_cons.mp hmem with h | h
                · exact absurd h.symm hmt
                · exact h)
        · simp only [decide_eq_true_eq]
          rw [match_iff_front]
          exact no_other_match hc (by omega) (by
            have := hml m (by simp); omega) hmt rest
  apply hgen
  · intro n hn
    exact List.mem_range.mp hn
  · exact List.mem_range.mpr ht

theorem findDigit_eq_none {cs : List (List Nat)} (hc : CodesOk cs) {t : Nat}
    (ht : t < 11) {r : List Nat} (hr : r <+: cs.getD t [])
    (hlt : r.length < (cs.getD t []).length) :
    findDigit cs r = none := by
  unfold findDigit
  rw [List.find?_eq_none]
  intro n hn
  simp only [decide_eq_true_eq]
  rw [match_iff_front]
  exact no_match_short hc ht (by have := List.mem_range.mp hn; omega) hr hlt

/-! ## The inner decode loop consumes exactly the tokens whose codes fit -/

theorem innerLoop_sim {cs : List (List Nat)} (hc : CodesOk cs) (iS : Nat) :
    ∀ (TSa r : List Nat) (number : List Char) (out : List (List Char)) (j : Nat)
      (final : List (List Char)) (TSb : List Nat),
    TokRun iS (TSa ++ TSb) number out j final →
    (TSb ≠ [] → r <+: cs.getD (TSb.headD 0) [] ∧
      r.length < (cs.getD (TSb.headD 0) []).length) →
    ∀ fuel, ((TSa.flatMap fun t => cs.getD t []) ++ r).length + 1 ≤ fuel →
    (TSb = [] ∧ ∃ st', innerLoop cs iS fuel
        ⟨(TSa.flatMap fun t => cs.getD t []) ++ r, number, out, j, true⟩ = .ok st' ∧
        st'.out = final ∧ st'.writing = false) ∨
    (TSb ≠ [] ∧ ∃ number2 out2 j2, TokRun iS TSb number2 out2 j2 final ∧
      innerLoop cs iS fuel
        ⟨(TSa.flatMap fun t => cs.getD t []) ++ r, number, out, j, true⟩ =
        .ok ⟨r, number2, out2, j2, true⟩) := by
  intro TSa
  induction TSa with
  | nil =>
    intro r number out j final TSb hrun hshort fuel hfuel
    obtain ⟨f, rfl⟩ : ∃ f, fuel = f + 1 := ⟨fuel - 1, by omega⟩
    simp only [List.flatMap_nil, List.nil_append] at hrun hfuel ⊢
    cases TSb with
    | nil =>
      left
      refine ⟨rfl, ?_⟩
      cases hrun with
      | eof _ _ =>
        refine ⟨⟨r, ['-', '0'], out, j, false⟩, ?_, rfl, rfl⟩
        unfold innerLoop
        rw [if_pos rfl]
    | cons t TSb' =>
      right
      refine ⟨by simp, number, out, j, hrun, ?_⟩
      have ht11 : t < 11 := by
        cases hrun with
        | sep _ _ _ _ _ _ _ _ => omega
        | digit _ _ _ _ _ _ _ hn _ => omega
      have hne0 : number ≠ ['-', '0'] := by
        cases hrun with
        | sep _ _ _ _ _ hne _ _ => exact hne
        | digit _ _ _ _ _ _ hne _ _ => exact hne
      obtain ⟨hpre, hlt⟩ := hshort (by simp)
      simp only [List.headD_cons] at hpre hlt
      unfold innerLoop
      rw [if_neg hne0]
      have hsep : ¬ ((cs.getD 10 []).length ≤ r.length ∧
          r.take (cs.getD 10 []).length = cs.getD 10 []) := by
        rw [match_iff_front]
        exact no_match_short hc ht11 (by omega) hpre hlt
      rw [if_neg hsep]
      rw [findDigit_eq_none hc ht11 hpre hlt]
  | cons t TSa' ih =>
    intro r number out j final TSb hrun hshort fuel hfuel
    obtain ⟨f, rfl⟩ : ∃ f, fuel = f + 1 := ⟨fuel - 1, by omega⟩
    rw [List.cons_append] at hrun
    have hbuf : ((t :: TSa').flatMap fun tok => cs.getD tok []) ++ r =
        cs.getD t [] ++ ((TSa'.flatMap fun tok => cs.getD tok []) ++ r) := by
      rw [List.flatMap_cons, List.append_assoc]
    cases hrun with
    | sep _ _ _ _ _ hne hj hrest =>
      have htne : cs.getD 10 [] ≠ [] := hc.nonempty 10 (by omega)
      have hstep : innerLoop cs iS (f + 1)
          ⟨((10 :: TSa').flatMap fun tok => cs.getD tok []) ++ r, number, out, j, true⟩ =
          innerLoop cs iS f
            ⟨(TSa'.flatMap fun tok => cs.getD tok []) ++ r, [],
              out ++ [if number = [] then ['0'] else number], j + 1, true⟩ := by
        conv_lhs => rw [innerLoop.eq_def]
        simp only []
        rw [hbuf]
        rw [if_neg hne]
        have hmatch : (cs.getD 10 []).length ≤
            (cs.getD 10 [] ++ ((TSa'.flatMap fun tok => cs.getD tok []) ++ r)).length ∧
            (cs.getD 10 [] ++ ((TSa'.flatMap fun tok => cs.getD tok []) ++ r)).take
              (cs.getD 10 []).length = cs.getD 10 [] := by
          rw [match_iff_front]
          exact List.prefix_append _ _
        rw [if_pos hmatch, if_pos hj, List.drop_left]
      rw [hstep]
      have hIH := ih r [] (out ++ [if number = [] then ['0'] else number]) (j + 1)
        final TSb hrest hshort f (by
          rw [hbuf] at hfuel
          have := List.length_pos.mpr htne
          simp only [List.length_append] at hfuel ⊢
          omega)
      exact hIH
    | digit _ n _ _ _ _ hne hn10 hrest =>
      have htne : cs.getD t [] ≠ [] := hc.nonempty t (by omega)
      have hstep : innerLoop cs iS (f + 1)
          ⟨((t :: TSa').flatMap fun tok => cs.getD tok []) ++ r, number, out, j, true⟩ =
          innerLoop cs iS f
            ⟨(TSa'.flatMap fun tok => cs.getD tok []) ++ r,
              (if number = [] ∧ t = 0 then ['-']
                else number ++ [Char.ofNat ('0'.toNat + t)]), out, j, true⟩ := by
        conv_lhs => rw [innerLoop.eq_def]
        simp only []
        rw [hbuf]
        rw [if_neg hne]
        have hsep : ¬ ((cs.getD 10 []).length ≤
            (cs.getD t [] ++ ((TSa'.flatMap fun tok => cs.getD tok []) ++ r)).length ∧
            (cs.getD t [] ++ ((TSa'.flatMap fun tok => cs.getD tok []) ++ r)).take
              (cs.getD 10 []).length = cs.getD 10 []) := by
          rw [match_iff_front]
          exact no_other_match hc (by omega) (by omega) (by omega) _
        rw [if_neg hsep, findDigit_eq_some hc hn10]
        simp only []
        rw [List.drop_left]
      rw [hstep]
      exact ih r _ out j final TSb hrest hshort f (by
        rw [hbuf] at hfuel
        have := List.length_pos.mpr htne
        simp only [List.length_append] at hfuel ⊢
        omega)

/-! ## Splitting a buffer along token code boundaries -/

theorem stream_split {cs : List (List Nat)} :
    ∀ (TSb w X extra : List Nat),
    w ++ X = (TSb.flatMap fun tok => cs.getD tok []) ++ extra →
    ∃ TSa TSb2 r, TSb = TSa ++ TSb2 ∧
      w = (TSa.flatMap fun tok => cs.getD tok []) ++ r ∧
      (TSb2 = [] ∨ (TSb2 ≠ [] ∧ r <+: cs.getD (TSb2.headD 0) [] ∧
        r.length < (cs.getD (TSb2.headD 0) []).length)) := by
  intro TSb
  induction TSb with
  | nil =>
    intro w X extra h
    exact ⟨[], [], w, by simp, by simp, Or.inl rfl⟩
  | cons t TSb' ih =>
    intro w X extra h
    rw [List.flatMap_cons, List.append_assoc] at h
    by_cases hlen : w.length < (cs.getD t []).length
    · refine ⟨[], t :: TSb', w, by simp, by simp, Or.inr ⟨by simp, ?_, ?_⟩⟩
      · simp only [List.headD_cons]
        exact prefix_of_left (h ▸ List.prefix_append w X) (by omega)
      · simpa using hlen
    · have hcpre : cs.getD t [] <+: w := by
        have h1 : cs.getD t [] <+: w ++ X := by
          rw [h]
          exact List.prefix_append _ _
        have h2 : w <+: w ++ X := List.prefix_append _ _
        rcases List.prefix_or_prefix_of_prefix h1 h2 with hp | hp
        · exact hp
        · have := hp.length_le
          have heq : w.length = (cs.getD t []).length ∨ w.length < (cs.getD t []).length := by
            omega
          rcases heq with he | he
          · rw [hp.eq_of_length (by omega)]
          · omega
      obtain ⟨w', rfl⟩ := hcpre
      rw [List.append_assoc] at h
      have h2 := List.append_cancel_left h
      obtain ⟨TSa', TSb2, r, hts, hw, hr⟩ := ih w' X extra h2
      exact ⟨t :: TSa', TSb2, r, by rw [hts]; rfl,
        by rw [List.flatMap_cons, List.append_assoc, hw], hr⟩

/-! ## The outer decode loop -/

theorem outerLoop_stopped (cs : List (List Nat)) (iS : Nat) (BS : List Nat)
    (st : DecState) (h : st.writing = false) :
    outerLoop cs iS BS st = .ok st := by
  cases BS with
  | nil => rfl
  | cons b rest =>
    unfold outerLoop
    rw [if_neg (by rw [h]; simp)]

theorem outerLoop_sim {cs : List (List Nat)} (hc : CodesOk cs) (iS : Nat) :
    ∀ (BS : List Nat) (TSb b : List Nat) (number : List Char)
      (out : List (List Char)) (j : Nat) (final : List (List Char)) (extra : List Nat),
    TokRun iS TSb number out j final →
    TSb ≠ [] →
    b.length < (TSb.flatMap fun tok => cs.getD tok []).length →
    b ++ BS.flatMap (bitsBE 8) = (TSb.flatMap fun tok => cs.getD tok []) ++ extra →
    ∃ st', outerLoop cs iS BS ⟨b, number, out, j, true⟩ = .ok st' ∧
      st'.out = final ∧ st'.writing = false := by
  intro BS
  induction BS with
  | nil =>
    intro TSb b number out j final extra hrun hne hblen heq
    exfalso
    simp only [List.flatMap_nil, List.append_nil] at heq
    have := congrArg List.length heq
    simp only [List.length_append] at this
    omega
  | cons byte rest ih =>
    intro TSb b number out j final extra hrun hne hblen heq
    have hw : (b ++ bitsBE 8 byte) ++ rest.flatMap (bitsBE 8) =
        (TSb.flatMap fun tok => cs.getD tok []) ++ extra := by
      rw [List.append_assoc]
      rw [← heq]
      rw [List.flatMap_cons]
    obtain ⟨TSa, TSb2, r, hts, hwsplit, hr⟩ :=
      stream_split TSb (b ++ bitsBE 8 byte) (rest.flatMap (bitsBE 8)) extra hw
    have hrun2 : TokRun iS (TSa ++ TSb2) number out j final := hts ▸ hrun
    have hshort : TSb2 ≠ [] → r <+: cs.getD (TSb2.headD 0) [] ∧
        r.length < (cs.getD (TSb2.headD 0) []).length := by
      intro hne2
      rcases hr with h | h
      · exact absurd h hne2
      · exact ⟨h.2.1, h.2.2⟩
    have hfuel : ((TSa.flatMap fun tok => cs.getD tok []) ++ r).length + 1 ≤
        b.length + 9 := by
      have := congrArg List.length hwsplit
      simp only [List.length_append, bitsBE_length] at this ⊢
      omega
    have hinner := innerLoop_sim hc iS TSa r number out j final TSb2 hrun2 hshort
      (b.length + 9) hfuel
    have hbufeq : (b ++ bitsBE 8 byte) = (TSa.flatMap fun tok => cs.getD tok []) ++ r :=
      hwsplit
    unfold outerLoop
    simp only []
    rw [hbufeq]
    rcases hinner with ⟨hts2, st', hok, hout, hwr⟩ | ⟨hne2, number2, out2, j2, hrun3, hok⟩
    · rw [hok]
      simp only []
      exact ⟨st', outerLoop_stopped cs iS rest st' hwr, hout, hwr⟩
    · rw [hok]
      simp only []
      apply ih TSb2 r number2 out2 j2 final extra hrun3 hne2
      · obtain ⟨hpre, hlt⟩ := hshort hne2
        have hfl : (cs.getD (TSb2.headD 0) []).length ≤
            (TSb2.flatMap fun tok => cs.getD tok []).length := by
          cases TSb2 with
          | nil => exact absurd rfl hne2
          | cons t2 ts2 =>
            rw [List.flatMap_cons]
            simp only [List.headD_cons, List.length_append]
            omega
        omega
      · have hstream2 : (TSa.flatMap fun tok => cs.getD tok []) ++
            (r ++ rest.flatMap (bitsBE 8)) =
            (TSa.flatMap fun tok => cs.getD tok []) ++
              ((TSb2.flatMap fun tok => cs.getD tok []) ++ extra) := by
          rw [← List.append_assoc, ← hwsplit, hw, hts, List.flatMap_append]
          simp
        exact List.append_cancel_left hstream2

/-! ## Building the token-level run for canonical input -/

theorem safeNum_ne_eof {number : List Char} (h : SafeNum number) :
    number ≠ ['-', '0'] := by
  rcases h with ⟨h1, h2⟩ | ⟨h1, h2⟩
  · intro hc
    rw [hc] at h2
    simp at h2
  · exact h2

theorem safeNum_append {number : List Char} (h : SafeNum number) (c : Char) :
    SafeNum (number ++ [c]) := by
  rcases h with ⟨h1, h2⟩ | ⟨h1, h2⟩
  · left
    constructor
    · simp
    · cases number with
      | nil => exact absurd rfl h1
      | cons a l => simpa using h2
  · right
    constructor
    · simp; omega
    · intro hc
      have := congrArg List.length hc
      simp at this
      omega

theorem tokRun_digits (iS : Nat) (cs : List Char) (hd : ∀ c ∈ cs, c.isDigit = true) :
    ∀ (number : List Char), SafeNum number →
    ∀ ts out j final, TokRun iS ts (number ++ cs) out j final →
    TokRun iS (cs.map digitVal ++ ts) number out j final := by
  induction cs with
  | nil =>
    intro number _ ts out j final h
    simpa using h
  | cons c cs' ih =>
    intro number hsafe ts out j final h
    have hcd := hd c (by simp)
    have hne : number ≠ [] := by
      rcases hsafe with ⟨h1, _⟩ | ⟨h1, _⟩
      · exact h1
      · intro hc; rw [hc] at h1; simp at h1
    rw [List.map_cons, List.cons_append]
    apply TokRun.digit _ _ _ _ _ _ (safeNum_ne_eof hsafe) (digitVal_lt_ten hcd)
    rw [if_neg (by intro hcon; exact hne hcon.1)]
    rw [digitChar_roundtrip hcd]
    apply ih (fun c hc => hd c (by simp [hc])) (number ++ [c]) (safeNum_append hsafe c)
    rw [List.append_assoc]
    simpa using h

theorem tokRun_line (iS : Nat) (l : List Char) (hc : canonLine l = true)
    (out : List (List Char)) (j : Nat) (final : List (List Char)) (ts : List Nat)
    (hj : j + 1 ≤ iS)
    (hrest : TokRun iS ts [] (out ++ [l]) (j + 1) final) :
    TokRun iS (tokLine l true ++ 10 :: ts) [] out j final := by
  rcases canonLine_cases l hc with h1 | ⟨d, ds, h1, hdig, h0, hds⟩ |
    ⟨d, ds, h1, hdig, h0, hds⟩
  · subst h1
    rw [tokLine_zero, List.nil_append]
    exact TokRun.sep _ _ _ _ _ (by simp) hj (by simpa using hrest)
  · subst h1
    rw [tokLine_dash, tokLine_lead_digit hdig h0 hds]
    show TokRun iS (0 :: digitVal d :: (ds.map digitVal ++ 10 :: ts)) [] out j final
    apply TokRun.digit _ _ _ _ _ _ (by simp) (by omega)
    rw [if_pos ⟨rfl, rfl⟩]
    apply TokRun.digit _ _ _ _ _ _ (by simp) (digitVal_lt_ten hdig)
    rw [if_neg (by simp)]
    rw [digitChar_roundtrip hdig]
    apply tokRun_digits iS ds hds (['-'] ++ [d]) (by
      right
      constructor
      · simp
      · intro hcon
        have : d = '0' := by
          have := List.cons.inj hcon
          have := List.cons.inj this.2
          exact this.1
        exact h0 this)
    apply TokRun.sep _ _ _ _ _ ?hne hj
    · simpa using hrest
    case hne =>
      intro hcon
      have hlen := congrArg List.length hcon
      simp at hlen
      have hd0 : d = '0' := by
        have h2 := List.cons.inj hcon
        have h3 := List.cons.inj h2.2
        exact h3.1
      exact h0 hd0
  · subst h1
    rw [tokLine_lead_digit hdig h0 hds]
    show TokRun iS (digitVal d :: (ds.map digitVal ++ 10 :: ts)) [] out j final
    apply TokRun.digit _ _ _ _ _ _ (by simp) (digitVal_lt_ten hdig)
    rw [if_neg (by
      intro hcon
      exact digitVal_ne_zero hdig h0 hcon.2)]
    rw [List.nil_append, digitChar_roundtrip hdig]
    apply tokRun_digits iS ds hds [d] (by
      left
      constructor
      · simp
      · simpa using digit_ne_dash hdig)
    apply TokRun.sep _ _ _ _ _ (by
      intro hcon
      have h2 := List.cons.inj hcon
      exact digit_ne_dash hdig h2.1) hj
    simpa using hrest

theorem tokRun_eof (iS : Nat) (out : List (List Char)) (j : Nat) :
    TokRun iS [0, 0] [] out j out := by
  apply TokRun.digit _ _ _ _ _ _ (by simp) (by omega)
  rw [if_pos ⟨rfl, rfl⟩]
  apply TokRun.digit _ _ _ _ _ _ (by simp) (by omega)
  rw [if_neg (by simp)]
  have : Char.ofNat ('0'.toNat + 0) = '0' := by decide
  rw [this]
  exact TokRun.eof _ _

theorem tokRun_whole (lines : List (List Char))
    (hc : ∀ l ∈ lines, canonLine l = true) (iS : Nat) :
    ∀ (out : List (List Char)) (j : Nat), j + lines.length ≤ iS →
    TokRun iS (textOf lines ++ [0, 0]) [] out j (out ++ lines) := by
  induction lines with
  | nil =>
    intro out j _
    simpa [textOf] using tokRun_eof iS out j
  | cons l rest ih =>
    intro out j hj
    have htext : textOf (l :: rest) = tokLine l true ++ 10 :: textOf rest := by
      unfold textOf
      rw [List.flatMap_cons]
      simp
    rw [htext]
    rw [List.append_assoc, List.cons_append]
    apply tokRun_line iS l (hc l (by simp)) out j (out ++ (l :: rest))
      (textOf rest ++ [0, 0]) (by simp at hj; omega)
    have := ih (fun l hl => hc l (by simp [hl])) (out ++ [l]) (j + 1)
      (by simp at hj ⊢; omega)
    simpa using this

/-! ## The packed byte stream re-expands to the bit stream plus padding -/

theorem bytesBits_chunkPad_prefix_aux : ∀ (n : Nat) (X : List Nat), X.length = n →
    (∀ x ∈ X, x < 2) → ∃ pad, (chunkPad X).flatMap (bitsBE 8) = X ++ pad := by
  intro n
  induction n using Nat.strong_induction_on with
  | _ n ih =>
    intro X hlen hb
    by_cases h0 : X = []
    · subst h0
      exact ⟨[], by simp [chunkPad, chunkPadF_nil]⟩
    by_cases h8 : 8 ≤ X.length
    · have hsplit : X = X.take 8 ++ X.drop 8 := (List.take_append_drop 8 X).symm
      have htl : (X.take 8).length = 8 := by rw [List.length_take]; omega
      obtain ⟨pad, hpad⟩ := ih (X.drop 8).length
        (by rw [List.length_drop]; subst hlen; omega) (X.drop 8) rfl
        (fun x hx => hb x (List.mem_of_mem_drop hx))
      refine ⟨pad, ?_⟩
      have hmain : (chunkPad X).flatMap (bitsBE 8) = X.take 8 ++ (X.drop 8 ++ pad) := by
        conv_lhs => rw [hsplit, chunkPad_cons8 htl]
        rw [List.flatMap_cons, hpad,
          bitsBE_byteVal 8 _ htl (fun x hx => hb x (List.mem_of_mem_take hx))]
      rw [hmain, ← List.append_assoc, List.take_append_drop]
    · have h1 : 0 < X.length := by
        cases X with
        | nil => exact absurd rfl h0
        | cons a l => simp
      rw [chunkPad_short h1 (by omega)]
      refine ⟨List.replicate (8 - X.length) 0, ?_⟩
      rw [List.flatMap_cons, List.flatMap_nil, List.append_nil]
      have hp8 : (padTo8 X).length = 8 := by
        unfold padTo8
        simp only [List.length_append, List.length_replicate]
        omega
      have hpb : ∀ x ∈ padTo8 X, x < 2 := by
        intro x hx
        unfold padTo8 at hx
        rcases List.mem_append.mp hx with h | h
        · exact hb x h
        · have := List.eq_of_mem_replicate h
          omega
      rw [bitsBE_byteVal 8 _ hp8 hpb]
      rfl

theorem bytesBits_chunkPad_prefix (X : List Nat) (hb : ∀ x ∈ X, x < 2) :
    ∃ pad, (chunkPad X).flatMap (bitsBE 8) = X ++ pad :=
  bytesBits_chunkPad_prefix_aux X.length X rfl hb

/-! ## Tokens of canonical files are valid symbols -/

theorem tokLine_lt_eleven (l : List Char) (hc : canonLine l = true) :
    ∀ tok ∈ tokLine l true, tok < 11 := by
  rcases canonLine_cases l hc with h1 | ⟨d, ds, h1, hdig, h0, hds⟩ |
    ⟨d, ds, h1, hdig, h0, hds⟩
  · subst h1
    rw [tokLine_zero]
    simp
  · subst h1
    rw [tokLine_dash, tokLine_lead_digit hdig h0 hds]
    intro tok htok
    rcases List.mem_cons.mp htok with h | h
    · omega
    rcases List.mem_cons.mp h with h | h
    · have := digitVal_lt_ten hdig
      omega
    · obtain ⟨c, hc2, hv⟩ := List.mem_map.mp h
      have := digitVal_lt_ten (hds c hc2)
      omega
  · subst h1
    rw [tokLine_lead_digit hdig h0 hds]
    intro tok htok
    rcases List.mem_cons.mp htok with h | h
    · have := digitVal_lt_ten hdig
      omega
    · obtain ⟨c, hc2, hv⟩ := List.mem_map.mp h
      have := digitVal_lt_ten (hds c hc2)
      omega

theorem textOf_lt_eleven (lines : List (List Char))
    (hc : ∀ l ∈ lines, canonLine l = true) :
    ∀ tok ∈ textOf lines ++ [0, 0], tok < 11 := by
  intro tok htok
  rcases List.mem_append.mp htok with h | h
  · obtain ⟨l, hl, hmem⟩ := List.mem_flatMap.mp h
    rcases List.mem_append.mp hmem with h2 | h2
    · exact tokLine_lt_eleven l (hc l hl) tok h2
    · have : tok = 10 := List.mem_singleton.mp h2
      omega
  · rcases List.mem_cons.mp h with h2 | h2
    · omega
    · have : tok = 0 := List.mem_singleton.mp h2
      omega

theorem flatMap_codes_len {cs : List (List Nat)} (hc : CodesOk cs) :
    ∀ TS : List Nat, (∀ tok ∈ TS, tok < 11) →
    TS.length ≤ (TS.flatMap fun tok => cs.getD tok []).length := by
  intro TS
  induction TS with
  | nil => intro _; simp
  | cons tok ts ih =>
    intro h
    rw [List.flatMap_cons, List.length_append, List.length_cons]
    have h1 : 1 ≤ (cs.getD tok []).length := by
      have := hc.nonempty tok (h tok (by simp))
      cases hcc : cs.getD tok [] with
      | nil => exact absurd hcc this
      | cons a l => simp
    have h2 := ih (fun t ht => h t (by simp [ht]))
    omega

/-! ## At most two symbols have a one-bit code -/

theorem codeN_len_one {t : List Nat} (F : TFacts t) {s : Nat} (hs : s < 20)
    (h1 : (codeN t s).length = 1) : t.getD s 0 = 20 := by
  have hp := F.parents s hs
  have hstep := @codeN_parent t (tfacts_parentsUp F) s (by rw [F.len]; omega)
    (by rw [F.len]; exact hp.2.2)
  rw [hstep, List.length_append, List.length_cons, List.length_nil] at h1
  have hnil : codeN t (t.getD s 0) = [] := List.length_eq_zero.mp (by omega)
  have := (codeN_empty_iff F (by omega)).mp hnil
  exact this

theorem three_children_false {t : List Nat} (F : TFacts t) {a b c : Nat}
    (hab : a < b) (hbc : b < c) (hcL : c < 20)
    (ha : t.getD a 0 = 20) (hb : t.getD b 0 = 20) (hcc : t.getD c 0 = 20) :
    False := by
  have hcount : t.count 20 = 2 := F.child2 20 (by omega) (by omega)
  have htot : nChildren t 20 0 = 2 := by
    rw [nChildren_zero_eq_count, hcount]
  have hsplit1 := nChildren_split t 20 (show 0 ≤ a + 1 from by omega)
    (show a + 1 ≤ t.length from by rw [F.len]; omega)
  have hsplit2 := nChildren_split t 20 (show a + 1 ≤ b + 1 from by omega)
    (show b + 1 ≤ t.length from by rw [F.len]; omega)
  have hsplit3 := nChildren_split t 20 (show b + 1 ≤ c + 1 from by omega)
    (show c + 1 ≤ t.length from by rw [F.len]; omega)
  have hC1 : 0 < (List.range' 0 (a + 1 - 0)).countP (fun j => t.getD j 0 = 20) := by
    rw [List.countP_pos_iff]
    exact ⟨a, by rw [List.mem_range'_1]; omega, by simpa using ha⟩
  have hC2 : 0 < (List.range' (a + 1) (b + 1 - (a + 1))).countP
      (fun j => t.getD j 0 = 20) := by
    rw [List.countP_pos_iff]
    exact ⟨b, by rw [List.mem_range'_1]; omega, by simpa using hb⟩
  have hC3 : 0 < (List.range' (b + 1) (c + 1 - (b + 1))).countP
      (fun j => t.getD j 0 = 20) := by
    rw [List.countP_pos_iff]
    exact ⟨c, by rw [List.mem_range'_1]; omega, by simpa using hcc⟩
  omega

theorem not_three_short {t : List Nat} (F : TFacts t) {a b c : Nat}
    (hab : a < b) (hbc : b < c) (hcL : c < 20)
    (h1 : (codeN t a).length = 1) (h2 : (codeN t b).length = 1)
    (h3 : (codeN t c).length = 1) : False :=
  three_children_false F hab hbc hcL (codeN_len_one F (by omega) h1)
    (codeN_len_one F (by omega) h2) (codeN_len_one F hcL h3)

/-! ## The encoded payload always holds at least five bits -/

theorem textOf_cons (l : List Char) (rest : List (List Char)) :
    textOf (l :: rest) = (tokLine l true ++ [10]) ++ textOf rest := by
  unfold textOf
  rw [List.flatMap_cons]

theorem textOf_nil : textOf [] = [] := rfl

theorem tokLine_empty_canon {l : List Char} (hc : canonLine l = true)
    (h : tokLine l true = []) : l = ['0'] := by
  rcases canonLine_cases l hc with h1 | ⟨d, ds, h1, hdig, hd0, hds⟩ |
    ⟨d, ds, h1, hdig, hd0, hds⟩
  · exact h1
  · subst h1
    rw [tokLine_dash] at h
    simp at h
  · subst h1
    rw [tokLine_lead_digit hdig hd0 hds] at h
    simp at h

theorem payload_five (lines : List (List Char))
    (hc : ∀ l ∈ lines, canonLine l = true) :
    5 ≤ ((textOf lines ++ [0, 0]).flatMap fun tok =>
      (huffman (tree (countsOf lines))).getD tok []).length := by
  have hco := codesOk_huffman (countsOf lines) (countsOf_length lines)
  have hlow := flatMap_codes_len hco (textOf lines ++ [0, 0])
    (textOf_lt_eleven lines hc)
  by_cases h3 : 3 ≤ (textOf lines).length
  · have hL : (textOf lines ++ [0, 0]).length = (textOf lines).length + 2 := by
      simp
    omega
  rcases lines with _ | ⟨l1, rest⟩
  · decide
  rcases rest with _ | ⟨l2, rest2⟩
  · have hc1 := hc l1 (by simp)
    have htlen : (textOf [l1]).length = (tokLine l1 true).length + 1 := by
      rw [textOf_cons, textOf_nil]
      simp
    by_cases h0 : tokLine l1 true = []
    · have he : l1 = ['0'] := tokLine_empty_canon hc1 h0
      subst he
      decide
    · have hpos : 0 < (tokLine l1 true).length := List.length_pos.mpr h0
      have h1 : (tokLine l1 true).length = 1 := by omega
      rcases canonLine_cases l1 hc1 with he | ⟨d, ds, he, hdig, hd0, hds⟩ |
        ⟨d, ds, he, hdig, hd0, hds⟩
      · subst he
        rw [tokLine_zero] at h0
        exact absurd rfl h0
      · subst he
        rw [tokLine_dash, tokLine_lead_digit hdig hd0 hds] at h1
        simp at h1
      · subst he
        rw [tokLine_lead_digit hdig hd0 hds] at h1
        simp only [List.length_cons, List.length_map] at h1
        have hds0 : ds = [] := List.length_eq_zero.mp (by omega)
        subst hds0
        have hTS : textOf [[d]] ++ [0, 0] = [digitVal d, 10, 0, 0] := by
          rw [textOf_cons, textOf_nil, tokLine_lead_digit hdig hd0 (by simp)]
          simp
        rw [hTS]
        have F := tree_tfacts (countsOf_length [[d]])
        have Hp := tfacts_parentsUp F
        have hLl : 11 ≤ (tree (countsOf [[d]])).length := by rw [F.len]; omega
        have hsd : digitVal d < 10 := digitVal_lt_ten hdig
        have hs0 : digitVal d ≠ 0 := digitVal_ne_zero hdig hd0
        rw [List.flatMap_cons, List.flatMap_cons, List.flatMap_cons,
          List.flatMap_cons, List.flatMap_nil]
        rw [huffman_getD Hp (by omega) hLl, huffman_getD Hp (by omega) hLl,
          huffman_getD Hp (by omega) hLl]
        simp only [List.length_append, List.length_nil]
        have hn0 : 0 < (codeN (tree (countsOf [[d]])) 0).length :=
          List.length_pos.mpr (codeN_ne_nil F (by omega))
        have hns : 0 < (codeN (tree (countsOf [[d]])) (digitVal d)).length :=
          List.length_pos.mpr (codeN_ne_nil F (by omega))
        have hn10 : 0 < (codeN (tree (countsOf [[d]])) 10).length :=
          List.length_pos.mpr (codeN_ne_nil F (by omega))
        have hnot : ¬ ((codeN (tree (countsOf [[d]])) 0).length = 1 ∧
            (codeN (tree (countsOf [[d]])) (digitVal d)).length = 1 ∧
            (codeN (tree (countsOf [[d]])) 10).length = 1) := by
          rintro ⟨x, y, z⟩
          exact not_three_short F (show 0 < digitVal d from by omega)
            (show digitVal d < 10 from hsd) (by omega) x y z
        omega
  · have hlen2 : (textOf (l1 :: l2 :: rest2)).length =
        (tokLine l1 true).length + 1 +
          ((tokLine l2 true).length + 1 + (textOf rest2).length) := by
      rw [textOf_cons, textOf_cons]
      simp only [List.length_append, List.length_cons, List.length_nil]
    have h1a : (tokLine l1 true).length = 0 := by omega
    have h1b : (tokLine l2 true).length = 0 := by omega
    have h1c : (textOf rest2).length = 0 := by omega
    have hl1 : l1 = ['0'] :=
      tokLine_empty_canon (hc l1 (by simp)) (List.length_eq_zero.mp h1a)
    have hl2 : l2 = ['0'] :=
      tokLine_empty_canon (hc l2 (by simp)) (List.length_eq_zero.mp h1b)
    have hr : rest2 = [] := by
      rcases rest2 with _ | ⟨r, rr⟩
      · rfl
      · exfalso
        have hx : (textOf (r :: rr)).length =
            (tokLine r true).length + 1 + (textOf rr).length := by
          rw [textOf_cons]
          simp only [List.length_append, List.length_cons, List.length_nil]
        omega
    subst hl1
    subst hl2
    subst hr
    decide

/-! ## The round trip: DECODE ∘ ENCODE on canonical input -/

theorem decode_encode_ok (lines : List (List Char))
    (hc : ∀ l ∈ lines, canonLine l = true) :
    DECODE lines.length (ENCODE lines) = .ok (lines, true) := by
  have F := tree_tfacts (countsOf_length lines)
  obtain ⟨hdec, hlen20, hvals⟩ := tree_decomp F
  have hco := codesOk_huffman (countsOf lines) (countsOf_length lines)
  have hp5 := payload_five lines hc
  have hpb := payload_bits (countsOf lines) (countsOf_length lines)
    (textOf lines ++ [0, 0])
  rw [ENCODE_eq]
  set T := tree (countsOf lines) with hT
  set P := (textOf lines ++ [0, 0]).flatMap fun tok =>
    (huffman T).getD tok [] with hP
  have hrh : readHeader (chunkPad (headerBits T ++ P)) =
      some (T.take 20 ++ [root], P.take 4, chunkPad (P.drop 4)) := by
    conv_lhs => rw [hdec]
    exact readHeader_stream _ (by rw [hlen20]) hvals _ (by omega) hpb
  unfold DECODE
  rw [hrh]
  simp only []
  rw [← hdec]
  obtain ⟨pad, hpad⟩ := bytesBits_chunkPad_prefix (P.drop 4)
    (fun x hx => hpb x (List.mem_of_mem_drop hx))
  have hrun : TokRun lines.length (textOf lines ++ [0, 0]) [] [] 0 lines := by
    have h := tokRun_whole lines hc lines.length [] 0 (by omega)
    simpa using h
  have hblen : (P.take 4).length <
      ((textOf lines ++ [0, 0]).flatMap fun tok => (huffman T).getD tok []).length := by
    rw [List.length_take, ← hP]
    omega
  have heq : P.take 4 ++ (chunkPad (P.drop 4)).flatMap (bitsBE 8) =
      ((textOf lines ++ [0, 0]).flatMap fun tok => (huffman T).getD tok []) ++ pad := by
    rw [hpad, ← List.append_assoc, List.take_append_drop, ← hP]
  obtain ⟨st', ho, hout, hw⟩ := outerLoop_sim hco lines.length
    (chunkPad (P.drop 4)) (textOf lines ++ [0, 0]) (P.take 4) [] [] 0 lines pad
    hrun (by simp) hblen heq
  rw [ho]
  simp only []
  rw [hout, hw]
  rfl

/-- C1: for every input file that is a finite sequence of lines, each a
canonical base-10 signed integer (no superfluous leading zeros), encoding
the file with `ENCODE` and then decoding the compressed output with
`DECODE` succeeds, reproduces exactly the original sequence of lines, and
reaches the ended (`writing = False`) state. -/
theorem encode_decode_roundtrip (lines : List (List Char))
    (hc : ∀ l ∈ lines, canonLine l = true) :
    DECODE lines.length (ENCODE lines) = .ok (lines, true) :=
  decode_encode_ok lines hc

theorem encode_decode_roundtrip_witness :
    (∀ l ∈ [['7'], ['-', '4', '2'], ['0']], canonLine l = true) ∧
    DECODE 3 (ENCODE [['7'], ['-', '4', '2'], ['0']]) =
      .ok ([['7'], ['-', '4', '2'], ['0']], true) :=
  ⟨by decide, encode_decode_roundtrip [['7'], ['-', '4', '2'], ['0']] (by decide)⟩

